import Mathlib

/-!
Verification development for the eslint-seatbelt state-reconciliation engine.

The definitions below are a shallow embedding of the TypeScript sources,
chiefly the class SeatbeltFile (src/SeatbeltFile.ts: encodeLine, decodeLine,
parse, getMaxErrors, updateMaxErrors, toDataString, readSync, flushChanges)
and the processor pipeline (src/SeatbeltProcessor.ts: countRuleIds,
isCountableLintError, transformMessages, maybeWriteStateUpdate,
handleProcessingError, postprocess).

Modelling conventions:
- JavaScript strings are Lean String values; character-level operations work
  on String.data (List Char) and compare characters by unicode scalar value.
- JavaScript Map objects are association lists in insertion order with unique
  keys; Map.set updates in place or appends, Map.delete removes, iteration
  follows list order, exactly as JS Maps iterate in insertion order.
- JavaScript numbers holding error counts are modelled as Int (all values the
  program computes are integers; the decoder performs no range check, so
  negative values are representable, matching JSON.parse).
- JSON.parse applied to a field is modelled by the JSON fragment the program
  actually stores: JSON string literals for the filename and ruleId columns
  and JSON integers for the maxErrors column.  Exotic inputs whose fields are
  other JSON value kinds are outside the embedded domain.
- Thrown exceptions are modelled with Except; file-system reads are passed in
  as an explicit (Option String) value (none models ENOENT).
-/

/-! ## Character and string utilities -/

/-- Whitespace test modelling the JavaScript regexp class backslash-s and the
whitespace skipped by JSON.parse and String.prototype.trim (common members). -/
def isJsWs (c : Char) : Bool :=
  c = ' ' || c = '\t' || c = '\n' || c = '\r' || c = '\x0b' || c = '\x0c'

/-- Both-ends whitespace trim on character lists, modelling
String.prototype.trim. -/
def trimChars (cs : List Char) : List Char :=
  (((cs.dropWhile isJsWs).reverse).dropWhile isJsWs).reverse

/-- Model of JS String.prototype.trim. -/
def jsTrim (s : String) : String := String.mk (trimChars s.data)

/-- Model of text.split with a lookbehind on a newline: every piece ends just
after a newline character; a final piece without newline is kept.  The empty
text yields no pieces (the source yields one empty piece, which the caller
filters out). -/
def splitAfterNL : List Char → List (List Char)
  | [] => []
  | c :: rest =>
    match splitAfterNL rest with
    | [] => [[c]]
    | g :: gs => if c = '\n' then [c] :: g :: gs else (c :: g) :: gs

/-- Model of line.split with a tab separator (JS String.prototype.split with a
one-character separator): number of pieces is one more than the number of
tabs, empty pieces preserved. -/
def splitOnTab : List Char → List (List Char)
  | [] => [[]]
  | c :: rest =>
    if c = '\t' then [] :: splitOnTab rest
    else
      match splitOnTab rest with
      | [] => [[c]]
      | g :: gs => (c :: g) :: gs

/-- Test for the comment-line regexp (caret, whitespace star, hash). -/
def isCommentLine (cs : List Char) : Bool :=
  match cs.dropWhile isJsWs with
  | '#' :: _ => true
  | _ => false

/-- Lexicographic comparison of character lists by unicode scalar value,
modelling the default JS string relational comparison used by Array sort. -/
def charListLe : List Char → List Char → Bool
  | [], _ => true
  | _ :: _, [] => false
  | a :: as, b :: bs => if a = b then charListLe as bs else decide (a.toNat < b.toNat)

/-- String comparison used to model the default Array.prototype.sort order. -/
def strLe (a b : String) : Bool := charListLe a.data b.data

/-- Stable insertion into a sorted list (helper of the sort model). -/
def insertSorted (le : α → α → Bool) (x : α) : List α → List α
  | [] => [x]
  | y :: ys => if le x y then x :: y :: ys else y :: insertSorted le x ys

/-- Stable sort modelling Array.prototype.sort with a total comparator. -/
def sortByLe (le : α → α → Bool) : List α → List α
  | [] => []
  | x :: xs => insertSorted le x (sortByLe le xs)

/-- Concatenation of a list of strings (model of Array.prototype.join with an
empty separator). -/
def joinStrings (l : List String) : String := String.mk (l.map String.data).flatten

/-! ## Decimal digits (model of JS number to string and JSON integer parse) -/

def digitChar : Nat → Char
  | 0 => '0' | 1 => '1' | 2 => '2' | 3 => '3' | 4 => '4'
  | 5 => '5' | 6 => '6' | 7 => '7' | 8 => '8' | _ => '9'

def digitVal (c : Char) : Nat := c.toNat - 48

def isDigitChar (c : Char) : Bool := decide (48 ≤ c.toNat) && decide (c.toNat ≤ 57)

/-- Fuel-indexed most-significant-first decimal digit expansion. -/
def natDigitsAux : Nat → Nat → List Char
  | 0, _ => []
  | fuel + 1, n => if n = 0 then [] else natDigitsAux fuel (n / 10) ++ [digitChar (n % 10)]

/-- Decimal representation of a natural number, as emitted by JS template
interpolation of an integer-valued number. -/
def natToChars (n : Nat) : List Char := if n = 0 then ['0'] else natDigitsAux (n + 1) n

def natToString (n : Nat) : String := String.mk (natToChars n)

/-- Decimal representation of an integer, as emitted by JS template
interpolation of an integer-valued number. -/
def intToChars (n : Int) : List Char :=
  if n < 0 then '-' :: natToChars n.natAbs else natToChars n.natAbs

def intToString (n : Int) : String := String.mk (intToChars n)

def parseDigits (cs : List Char) : Nat := cs.foldl (fun a c => 10 * a + digitVal c) 0

/-- Model of JSON.parse applied to the maxErrors column: optional surrounding
whitespace, optional minus sign, a non-empty run of decimal digits.  This is
the integer fragment of the JSON number grammar; the program only ever writes
integers in this column and performs no further validation. -/
def parseIntChars (cs : List Char) : Option Int :=
  let s1 := cs.dropWhile isJsWs
  let (neg, s2) :=
    match s1 with
    | c :: rest => if c = '-' then (true, rest) else (false, c :: rest)
    | [] => (false, [])
  let ds := s2.takeWhile isDigitChar
  let rest := s2.dropWhile isDigitChar
  if ds.isEmpty then none
  else if rest.all isJsWs then
    let v : Int := Int.ofNat (parseDigits ds)
    some (if neg then -v else v)
  else none

/-! ## JSON string literals (model of JSON.stringify / JSON.parse on strings) -/

def hexDigitChar (d : Nat) : Char :=
  if d < 10 then digitChar d
  else if d = 10 then 'a' else if d = 11 then 'b' else if d = 12 then 'c'
  else if d = 13 then 'd' else if d = 14 then 'e' else 'f'

def hexVal (c : Char) : Option Nat :=
  if isDigitChar c then some (digitVal c)
  else if c = 'a' || c = 'A' then some 10
  else if c = 'b' || c = 'B' then some 11
  else if c = 'c' || c = 'C' then some 12
  else if c = 'd' || c = 'D' then some 13
  else if c = 'e' || c = 'E' then some 14
  else if c = 'f' || c = 'F' then some 15
  else none

/-- Escaping of one character inside a JSON string literal, as performed by
JSON.stringify: quote and backslash get a backslash escape, the named control
characters get their two-character escapes, other control characters get a
four-hex-digit lowercase unicode escape, everything else is emitted verbatim. -/
def escapeChar (c : Char) : List Char :=
  if c = '"' then ['\\', '"']
  else if c = '\\' then ['\\', '\\']
  else if c = '\x08' then ['\\', 'b']
  else if c = '\t' then ['\\', 't']
  else if c = '\n' then ['\\', 'n']
  else if c = '\x0c' then ['\\', 'f']
  else if c = '\r' then ['\\', 'r']
  else if c.toNat < 32 then
    ['\\', 'u', '0', '0', hexDigitChar (c.toNat / 16), hexDigitChar (c.toNat % 16)]
  else [c]

/-- Model of JSON.stringify applied to a string value. -/
def jsonQuoteChars (cs : List Char) : List Char := '"' :: cs.flatMap escapeChar ++ ['"']

def jsonStringifyStr (s : String) : String := String.mk (jsonQuoteChars s.data)

/-- Parser for the body of a JSON string literal after the opening quote:
returns the decoded content and the remaining input after the closing quote.
Handles the standard escapes and 4-hex-digit unicode escapes whose value is a
unicode scalar; rejects raw control characters as JSON.parse does. -/
def parseStringBody : List Char → Option (List Char × List Char)
  | [] => none
  | c :: rest =>
    if c = '"' then some ([], rest)
    else if c = '\\' then
      match rest with
      | [] => none
      | e :: rest2 =>
        if e = '"' then (parseStringBody rest2).map (fun p => ('"' :: p.1, p.2))
        else if e = '\\' then (parseStringBody rest2).map (fun p => ('\\' :: p.1, p.2))
        else if e = '/' then (parseStringBody rest2).map (fun p => ('/' :: p.1, p.2))
        else if e = 'b' then (parseStringBody rest2).map (fun p => ('\x08' :: p.1, p.2))
        else if e = 'f' then (parseStringBody rest2).map (fun p => ('\x0c' :: p.1, p.2))
        else if e = 'n' then (parseStringBody rest2).map (fun p => ('\n' :: p.1, p.2))
        else if e = 'r' then (parseStringBody rest2).map (fun p => ('\r' :: p.1, p.2))
        else if e = 't' then (parseStringBody rest2).map (fun p => ('\t' :: p.1, p.2))
        else if e = 'u' then
          match rest2 with
          | h1 :: h2 :: h3 :: h4 :: rest3 =>
            match hexVal h1, hexVal h2, hexVal h3, hexVal h4 with
            | some a, some b, some c2, some d =>
              let v := ((a * 16 + b) * 16 + c2) * 16 + d
              if Nat.isValidChar v then
                (parseStringBody rest3).map (fun p => (Char.ofNat v :: p.1, p.2))
              else none
            | _, _, _, _ => none
          | _ => none
        else none
    else if c.toNat < 32 then none
    else (parseStringBody rest).map (fun p => (c :: p.1, p.2))

/-- Model of JSON.parse applied to a column expected to hold a JSON string
literal: optional surrounding whitespace around one string literal. -/
def parseJsonStringChars (cs : List Char) : Option (List Char) :=
  match cs.dropWhile isJsWs with
  | '"' :: rest =>
    match parseStringBody rest with
    | some (content, rest2) => if rest2.all isJsWs then some content else none
    | none => none
  | _ => none

example : parseJsonStringChars ("\"a.ts\"").data = some ("a.ts").data := by decide

example : parseIntChars ("-5\n").data = some (-5) := by decide

example : splitOnTab ("a\tb\tc").data = [['a'], ['b'], ['c']] := by decide

/-! ## Data model of the seatbelt state file (src/SeatbeltFile.ts) -/

abbrev SourceFileName := String
abbrev RuleId := String

/-- Name of the npm package (package.json "name"; the README documents it as
eslint-seatbelt).  Used only inside generated message text. -/
def pkgName : String := "eslint-seatbelt"

/-- Version of the npm package (package.json "version" is not part of the
sources; the value itself never influences control flow). -/
def pkgVersion : String := "0.0.0"

def SEATBELT_FROZEN : String := "SEATBELT_FROZEN"

def SEATBELT_INCREASE : String := "SEATBELT_INCREASE"

def SEATBELT_KEEP : String := "SEATBELT_KEEP"

/-- Default leading comment block written when a file had none
(DEFAULT_FILE_HEADER in src/SeatbeltFile.ts, already trimmed). -/
def DEFAULT_FILE_HEADER : String :=
  "# eslint-seatbelt temporarily allowed errors\n# docs: https://github.com/justjake/eslint-seatbelt#readme"

/-- One record of the state file (interface SeatbeltFileLine): the optional
cached encoded form plus the three decoded fields. -/
structure SeatbeltFileLine where
  encoded : Option String
  filename : SourceFileName
  ruleId : RuleId
  maxErrors : Int
deriving DecidableEq, Repr

/-- Per-file state (interface SeatbeltStateFileData): lazily materialized
allowance map plus the raw decoded lines. -/
structure SeatbeltStateFileData where
  maxErrors : Option (List (RuleId × Int))
  lines : List SeatbeltFileLine
deriving DecidableEq, Repr

/-! JS Map model: association list in insertion order. -/

def mapGet [DecidableEq α] (m : List (α × β)) (k : α) : Option β :=
  match m with
  | [] => none
  | (k2, v2) :: rest => if k2 = k then some v2 else mapGet rest k

def mapSet [DecidableEq α] (m : List (α × β)) (k : α) (v : β) : List (α × β) :=
  match m with
  | [] => [(k, v)]
  | (k2, v2) :: rest => if k2 = k then (k2, v) :: rest else (k2, v2) :: mapSet rest k v

def mapHas [DecidableEq α] (m : List (α × β)) (k : α) : Bool := (mapGet m k).isSome

/-- Decode error carrying what the appended error context records: the
1-based reported line number (map index plus one) and the trimmed line text
(function decodeLine appends them to the message in the source). -/
structure LineError where
  message : String
  lineNumber : Nat
  content : String
deriving DecidableEq, Repr

/-- Model of function encodeLine: two JSON-stringified fields and the bare
number, tab separated, newline terminated. -/
def encodeLine (line : SeatbeltFileLine) : String :=
  jsonStringifyStr line.filename ++ "\t" ++ jsonStringifyStr line.ruleId ++ "\t"
    ++ intToString line.maxErrors ++ "\n"

/-- Model of function decodeLine: split on tab into exactly 3 parts, JSON
parse each part (string, string, integer).  Every failure is reported with
the 1-based index of the line in the decoded sequence and the trimmed line
content, as appendErrorContext does in the source. -/
def decodeLine (line : List Char) (index : Nat) : Except LineError SeatbeltFileLine :=
  let fail := fun (msg : String) =>
    Except.error (LineError.mk msg (index + 1) (String.mk (trimChars line)))
  match splitOnTab line with
  | [p0, p1, p2] =>
    match parseJsonStringChars p0 with
    | none => fail "JSON parse error at tab-separated column 1 (filename)"
    | some filename =>
      match parseJsonStringChars p1 with
      | none => fail "JSON parse error at tab-separated column 2 (RuleId)"
      | some ruleId =>
        match parseIntChars p2 with
        | none => fail "JSON parse error at tab-separated column 3 (maxErrors)"
        | some maxErrors =>
          Except.ok (SeatbeltFileLine.mk (some (String.mk line)) (String.mk filename)
            (String.mk ruleId) maxErrors)
  | parts =>
    fail ("Expected 3 tab-separated JSON strings, instead have " ++ natToString parts.length)

/-- In-memory seatbelt file (class SeatbeltFile): backing path, per-file
state in insertion order, preserved comment block, dirty flag. -/
structure SeatbeltFile where
  filename : String
  data : List (SourceFileName × SeatbeltStateFileData)
  comments : String
  changed : Bool
deriving DecidableEq, Repr

/-- Rule sets as configured: either the string literal all or a JS Set of
rule ids (SeatbeltConfig's Set of RuleId or the string all). -/
inductive RuleSet where
  | all : RuleSet
  | ofList : List RuleId → RuleSet
deriving DecidableEq, Repr

/-- Effective arguments consumed by the engine (interface SeatbeltArgs). -/
structure SeatbeltArgs where
  seatbeltFile : String
  keepRules : RuleSet
  allowIncreaseRules : RuleSet
  frozen : Bool
  disable : Bool
  threadsafe : Bool
  verbose : Bool
deriving DecidableEq, Repr

/-- Model of SeatbeltArgs.ruleSetHas in src/SeatbeltConfig.ts. -/
def SeatbeltArgs.ruleSetHas (ruleSet : RuleSet) (ruleId : RuleId) : Bool :=
  match ruleSet with
  | .all => true
  | .ofList l => l.contains ruleId

/-- Test for Set size greater than zero (used on allowIncreaseRules). -/
def RuleSet.nonempty : RuleSet → Bool
  | .all => true
  | .ofList l => !l.isEmpty

/-- Model of function parseMaxErrors: last write wins over the decoded
lines, in order. -/
def parseMaxErrors (lines : List SeatbeltFileLine) : List (RuleId × Int) :=
  lines.foldl (fun m l => mapSet m l.ruleId l.maxErrors) []

namespace SeatbeltFile

/-- The decoded lines kept by SeatbeltFile.parse: not empty, not a lone
newline, not a comment line. -/
def keptLines (text : String) : List (List Char) :=
  (splitAfterNL text.data).filter
    (fun l => !l.isEmpty && decide (l ≠ ['\n']) && !isCommentLine l)

/-- Indexed decoding of the kept lines; the first failure aborts the whole
read, exactly as a thrown exception escapes Array.prototype.map. -/
def decodeLinesFrom : List (List Char) → Nat → Except LineError (List SeatbeltFileLine)
  | [], _ => Except.ok []
  | l :: rest, i =>
    match decodeLine l i with
    | Except.error e => Except.error e
    | Except.ok x =>
      match decodeLinesFrom rest (i + 1) with
      | Except.error e => Except.error e
      | Except.ok xs => Except.ok (x :: xs)

/-- Grouping step of SeatbeltFile.parse: append the line to its file's
state, creating the entry on first sight. -/
def insertLine (data : List (SourceFileName × SeatbeltStateFileData)) (l : SeatbeltFileLine) :
    List (SourceFileName × SeatbeltStateFileData) :=
  match mapGet data l.filename with
  | some fs => mapSet data l.filename (SeatbeltStateFileData.mk fs.maxErrors (fs.lines ++ [l]))
  | none => data ++ [(l.filename, SeatbeltStateFileData.mk none [l])]

def groupLines (ls : List SeatbeltFileLine) : List (SourceFileName × SeatbeltStateFileData) :=
  ls.foldl insertLine []

/-- Model of static SeatbeltFile.parse: split keeping newlines, filter
comments and blanks, decode every kept line (first failure is fatal), group
by filename, keep the concatenated comment lines trimmed. -/
def parse (filename text : String) : Except LineError SeatbeltFile :=
  let split := splitAfterNL text.data
  let kept := split.filter (fun l => !l.isEmpty && decide (l ≠ ['\n']) && !isCommentLine l)
  let commentsText := (split.filter isCommentLine).flatten
  match decodeLinesFrom kept 0 with
  | Except.error e => Except.error e
  | Except.ok lines =>
    Except.ok (SeatbeltFile.mk filename (groupLines lines) (String.mk (trimChars commentsText)) false)

/-- The allowance mapping a file state denotes: the cache when materialized,
otherwise what materializing would produce. -/
def fileMapping (fs : SeatbeltStateFileData) : List (RuleId × Int) :=
  match fs.maxErrors with
  | some m => m
  | none => parseMaxErrors fs.lines

/-- Value-level model of getMaxErrors (the mapping returned to callers). -/
def getMaxErrors (st : SeatbeltFile) (filename : SourceFileName) : Option (List (RuleId × Int)) :=
  (mapGet st.data filename).map fileMapping

/-- State-level effect of getMaxErrors: the lazily parsed mapping is stored
into the per-file cache (fileState.maxErrors is assigned on first access). -/
def materialize (st : SeatbeltFile) (filename : SourceFileName) : SeatbeltFile :=
  match mapGet st.data filename with
  | none => st
  | some fs =>
    SeatbeltFile.mk st.filename
      (mapSet st.data filename (SeatbeltStateFileData.mk (some (fileMapping fs)) fs.lines))
      st.comments st.changed

/-- Effective allowance of one (file, rule) pair, defaulting to 0 exactly as
the source reads the mapping (get with a 0 fallback). -/
def allowance (st : SeatbeltFile) (filename : SourceFileName) (ruleId : RuleId) : Int :=
  ((getMaxErrors st filename).bind (fun m => mapGet m ruleId)).getD 0

end SeatbeltFile

example : SeatbeltFile.parse "f.tsv" "\"a.ts\"\t\"r\"\t5\n" =
    Except.ok (SeatbeltFile.mk "f.tsv"
      [("a.ts", SeatbeltStateFileData.mk none
        [SeatbeltFileLine.mk (some "\"a.ts\"\t\"r\"\t5\n") "a.ts" "r" 5])] "" false) := by
  rfl

namespace SeatbeltFile

/-- Result record of updateMaxErrors. -/
structure UpdateMaxErrorsResult where
  removedRules : List RuleId
  increasedRulesCount : Nat
  decreasedRulesCount : Nat
deriving DecidableEq, Repr

/-- One step of the reconcile loop of updateMaxErrors, for one observed
(ruleId, errorCount) entry: write the observed count when it decreased or the
rule may increase; count the direction.  Note the write happens regardless of
args.frozen (the frozen check only guards the dirty flag later). -/
def reconcileStep (args : SeatbeltArgs) (acc : List (RuleId × Int) × Nat × Nat)
    (entry : RuleId × Int) : List (RuleId × Int) × Nat × Nat :=
  let maxErrors := acc.1
  let inc := acc.2.1
  let dec := acc.2.2
  let ruleId := entry.1
  let errorCount := entry.2
  let maxErrorCount := (mapGet maxErrors ruleId).getD 0
  if errorCount = maxErrorCount then acc
  else if errorCount < maxErrorCount || SeatbeltArgs.ruleSetHas args.allowIncreaseRules ruleId then
    (mapSet maxErrors ruleId errorCount,
      (if errorCount > maxErrorCount then inc + 1 else inc),
      (if errorCount > maxErrorCount then dec else dec + 1))
  else acc

/-- Removal predicate of the stale-rule pass: the stored count is zero or the
rule is absent from the current observation. -/
def shouldRemoveRule (ruleToErrorCount : List (RuleId × Int)) (entry : RuleId × Int) : Bool :=
  entry.2 = 0 || !(mapHas ruleToErrorCount entry.1)

/-- A map entry is dropped by the removal pass when it should be removed and
is not protected by keepRules. -/
def removedByPass (args : SeatbeltArgs) (ruleToErrorCount : List (RuleId × Int))
    (entry : RuleId × Int) : Bool :=
  shouldRemoveRule ruleToErrorCount entry && !SeatbeltArgs.ruleSetHas args.keepRules entry.1

/-- Stale-rule removal pass of updateMaxErrors.  The source iterates the live
map and deletes only the entry under the cursor, which is equivalent to this
filter; the pass is skipped entirely when not verbose and keepRules is all. -/
def removalPass (args : SeatbeltArgs) (ruleToErrorCount : List (RuleId × Int))
    (maxErrors : List (RuleId × Int)) : List (RuleId × Int) × List RuleId :=
  if args.verbose || decide (args.keepRules ≠ RuleSet.all) then
    (maxErrors.filter (fun e => !removedByPass args ruleToErrorCount e),
      (maxErrors.filter (removedByPass args ruleToErrorCount)).map Prod.fst)
  else (maxErrors, [])

/-- Model of SeatbeltFile.updateMaxErrors.  The source first calls
this.getMaxErrors(filename) (materializing the cache), then binds the local
maxErrors to the cached map object itself, so every set and delete below
mutates the store's cache directly, regardless of args.frozen: when the file
already has a state entry, the final map is always written back (aliasing);
the (changed and not frozen) test only controls the dirty flag and the
creation of a state entry for a previously untracked file. -/
def updateMaxErrors (st : SeatbeltFile) (filename : SourceFileName) (args : SeatbeltArgs)
    (ruleToErrorCount : List (RuleId × Int)) : SeatbeltFile × UpdateMaxErrorsResult :=
  let st := materialize st filename
  let fsOpt := mapGet st.data filename
  let maxErrors0 :=
    match fsOpt with
    | some fs => fileMapping fs
    | none => []
  let step1 := ruleToErrorCount.foldl (reconcileStep args) (maxErrors0, 0, 0)
  let maxErrors1 := step1.1
  let inc := step1.2.1
  let dec := step1.2.2
  let step2 := removalPass args ruleToErrorCount maxErrors1
  let maxErrors2 := step2.1
  let removed := step2.2
  let changed := inc > 0 || dec > 0 || !removed.isEmpty
  let st2 :=
    match fsOpt with
    | some fs =>
      SeatbeltFile.mk st.filename
        (mapSet st.data filename (SeatbeltStateFileData.mk (some maxErrors2) fs.lines))
        st.comments (st.changed || (changed && !args.frozen))
    | none =>
      if changed && !args.frozen then
        SeatbeltFile.mk st.filename
          (st.data ++ [(filename, SeatbeltStateFileData.mk (some maxErrors2) [])])
          st.comments true
      else st
  (st2, UpdateMaxErrorsResult.mk removed inc dec)

/-- Per-file comparator of the rebuilt lines inside toDataString: order by
ruleId only (the source comparator returns 0 on equal ruleIds). -/
def ruleIdLe (a b : SeatbeltFileLine) : Bool := strLe a.ruleId b.ruleId

/-- Encoded lines contributed by one file state inside toDataString: when the
allowance cache exists the lines array is rebuilt from it (sorted by ruleId,
freshly encoded); otherwise the raw lines are emitted from their byte cache,
encoding only lines that never had one. -/
def fileStateLines (filename : SourceFileName) (fs : SeatbeltStateFileData) : List String :=
  match fs.maxErrors with
  | some m =>
    let rebuilt := m.map (fun e => SeatbeltFileLine.mk none filename e.1 e.2)
    (sortByLe ruleIdLe rebuilt).map (fun l => (l.encoded).getD (encodeLine l))
  | none => fs.lines.map (fun l => (l.encoded).getD (encodeLine l))

/-- All encoded data lines of the store, in store iteration order, before the
global sort. -/
def dataLines (st : SeatbeltFile) : List String :=
  st.data.flatMap (fun p => fileStateLines p.1 p.2)

/-- Model of SeatbeltFile.toDataString: comment block, a blank separator
line, then every encoded record line in global sorted order. -/
def toDataString (st : SeatbeltFile) : String :=
  st.comments ++ "\n\n" ++ joinStrings (sortByLe strLe (dataLines st))

/-- Model of static SeatbeltFile.openSync: parse the backing file when it
exists, otherwise a fresh empty store bound to the same path (the ENOENT
branch); other parse failures propagate. -/
def openSync (filename : String) (fsContent : Option String) : Except LineError SeatbeltFile :=
  match fsContent with
  | none => Except.ok (SeatbeltFile.mk filename [] DEFAULT_FILE_HEADER false)
  | some text => parse filename text

/-- Model of the instance method readSync: open the backing path and replace
this.data with the freshly read data, clearing the dirty flag (the source's
conditional is always taken since openSync never returns a falsy value);
comments and filename of the receiver are untouched. -/
def readSyncInstance (st : SeatbeltFile) (fsContent : Option String) :
    Except LineError SeatbeltFile :=
  (openSync st.filename fsContent).map
    (fun next => SeatbeltFile.mk st.filename next.data st.comments false)

/-- Model of flushChanges: when dirty, write (the bytes written are
toDataString; the disk write itself is outside the embedding) and clear the
dirty flag, reporting whether a write happened. -/
def flushChanges (st : SeatbeltFile) : SeatbeltFile × Bool :=
  if st.changed then (SeatbeltFile.mk st.filename st.data st.comments false, true)
  else (st, false)

end SeatbeltFile

/-! ## Processor pipeline (src/SeatbeltProcessor.ts) -/

/-- One ESLint diagnostic as far as the processor inspects it.  The
suppressions array only matters through its length, modelled by
suppressionCount. -/
structure LintMessage where
  ruleId : Option String
  severity : Nat
  line : Nat
  column : Nat
  message : String
  suppressionCount : Nat
deriving DecidableEq, Repr

/-- Model of a JS Error object as the pipeline observes it: the message text
and membership in the alreadyModifiedError weak set. -/
structure JsError where
  message : String
  modified : Bool
deriving DecidableEq, Repr

/-- Model of appendErrorContext in src/errorHanding.ts. -/
def appendErrorContext (e : JsError) (context : String) : JsError :=
  JsError.mk (e.message ++ "\n  " ++ context) e.modified

/-- Rendering of a decode error into an Error message (the appended contexts
recorded in the LineError structure, in source order). -/
def lineErrorToJsError (e : LineError) : JsError :=
  JsError.mk (e.message ++ "\n  at line " ++ natToString e.lineNumber ++ ": "
    ++ e.content) false

/-- Model of isCountableLintError: error severity, no suppressions, truthy
ruleId (the empty string is falsy in JS). -/
def isCountableLintError (m : LintMessage) : Bool :=
  if m.severity < 2 then false
  else if m.suppressionCount > 0 then false
  else
    match m.ruleId with
    | none => false
    | some r => !(r = "")

/-- Model of countRuleIds: tally countable messages per rule, in first-seen
order. -/
def countRuleIds (messages : List LintMessage) : List (RuleId × Int) :=
  messages.foldl
    (fun m msg =>
      if isCountableLintError msg then
        match msg.ruleId with
        | some r => mapSet m r ((mapGet m r).getD 0 + 1)
        | none => m
      else m)
    []

def pluralErrors (count : Int) : String := if count = 1 then "error" else "errors"

/-- Model of messageOverMaxErrorCount (severity stays unchanged). -/
def messageOverMaxErrorCount (m : LintMessage) (errorCount maxErrorCount : Int) : LintMessage :=
  LintMessage.mk m.ruleId m.severity m.line m.column
    (jsTrim (m.message ++ "\n[" ++ pkgName ++ "]: There are " ++ intToString errorCount
      ++ " " ++ pluralErrors errorCount ++ " of this type, but only "
      ++ intToString maxErrorCount ++ " are allowed.\nRemove "
      ++ intToString (errorCount - maxErrorCount)
      ++ " to turn these errors into warnings.\n    "))
    m.suppressionCount

/-- Model of messageOverMaxErrorCountButIncreaseAllowed (demoted to warning). -/
def messageOverMaxErrorCountButIncreaseAllowed (m : LintMessage)
    (errorCount maxErrorCount : Int) : LintMessage :=
  let increaseCount := errorCount - maxErrorCount
  LintMessage.mk m.ruleId 1 m.line m.column
    (jsTrim (m.message ++ "\n[" ++ pkgName ++ "]: " ++ SEATBELT_INCREASE
      ++ ": Temporarily allowing " ++ intToString increaseCount ++ " new "
      ++ pluralErrors increaseCount ++ " of this type.\n    "))
    m.suppressionCount

/-- Model of messageAtMaxErrorCount (demoted to warning). -/
def messageAtMaxErrorCount (m : LintMessage) (errorCount : Int) : LintMessage :=
  LintMessage.mk m.ruleId 1 m.line m.column
    (jsTrim (m.message ++ "\n[" ++ pkgName ++ "]: This file is temporarily allowed to have "
      ++ intToString errorCount ++ " " ++ pluralErrors errorCount
      ++ " of this type.\nPlease tend the garden by fixing if you have the time.\n    "))
    m.suppressionCount

/-- Model of messageUnderMaxErrorCount (demoted to warning; the source
computes fixed as errorCount minus maxErrorCount, which is negative here, and
interpolates it verbatim). -/
def messageUnderMaxErrorCount (m : LintMessage) (errorCount maxErrorCount : Int) : LintMessage :=
  let fixed := errorCount - maxErrorCount
  let fixedMessage := if fixed = 1 then "one" else intToString fixed ++ " errors"
  LintMessage.mk m.ruleId 1 m.line m.column
    (jsTrim (m.message ++ "\n[" ++ pkgName ++ "]: This file is temporarily allowed to have "
      ++ intToString maxErrorCount ++ " " ++ pluralErrors maxErrorCount
      ++ " of this type.\nThank you for fixing " ++ fixedMessage ++ ", it really helps.\n    "))
    m.suppressionCount

/-- Model of messageFrozenUnderMaxErrorCountText. -/
def messageFrozenUnderMaxErrorCountText (seatbeltFilename : String)
    (errorCount maxErrorCount : Int) : String :=
  let fixed := errorCount - maxErrorCount
  let fixedMessage := if fixed = 1 then "error" else "errors"
  jsTrim ("\n[" ++ pkgName ++ "]: " ++ SEATBELT_FROZEN ++ ": Expected "
    ++ intToString maxErrorCount ++ " " ++ pluralErrors maxErrorCount ++ ", found "
    ++ intToString errorCount ++ ".\nIf you fixed " ++ intToString fixed ++ " "
    ++ fixedMessage
    ++ ", thank you, but you'll need to update the seatbelt file to match.\nTry running eslint, then committing "
    ++ seatbeltFilename ++ ".\n")

/-- Model of messageFrozenUnderMaxErrorCount (demoted to warning with the
frozen annotation appended). -/
def messageFrozenUnderMaxErrorCount (m : LintMessage) (seatbeltFilename : String)
    (errorCount maxErrorCount : Int) : LintMessage :=
  LintMessage.mk m.ruleId 1 m.line m.column
    (m.message ++ "\n" ++ messageFrozenUnderMaxErrorCountText seatbeltFilename errorCount maxErrorCount)
    m.suppressionCount

/-- Classification of one message inside transformMessages (the body of the
messages.map callback).  Throws (Except.error) when a countable rule is
missing from the count map. -/
def transformOneMessage (args : SeatbeltArgs) (ruleToMaxErrorCount : Option (List (RuleId × Int)))
    (filename : String) (ruleToErrorCount : List (RuleId × Int)) (m : LintMessage) :
    Except JsError LintMessage :=
  match m.ruleId with
  | none => Except.ok m
  | some rid =>
    if !isCountableLintError m then Except.ok m
    else
      match mapGet ruleToErrorCount rid with
      | none =>
        Except.error (JsError.mk (pkgName ++ " bug: errorCount not found for rule " ++ rid) false)
      | some errorCount =>
        let maxErrorCount := ((ruleToMaxErrorCount.bind (fun mm => mapGet mm rid))).getD 0
        let allowIncrease := SeatbeltArgs.ruleSetHas args.allowIncreaseRules rid
        if maxErrorCount = 0 && !allowIncrease then Except.ok m
        else if errorCount > maxErrorCount then
          if allowIncrease then
            Except.ok (messageOverMaxErrorCountButIncreaseAllowed m errorCount maxErrorCount)
          else Except.ok (messageOverMaxErrorCount m errorCount maxErrorCount)
        else if errorCount = maxErrorCount then Except.ok (messageAtMaxErrorCount m errorCount)
        else if args.frozen then
          Except.ok (messageFrozenUnderMaxErrorCount m filename errorCount maxErrorCount)
        else Except.ok (messageUnderMaxErrorCount m errorCount maxErrorCount)

/-- Sequential map in Except, modelling Array.prototype.map with a callback
that can throw. -/
def mapMessages (f : LintMessage → Except JsError LintMessage) :
    List LintMessage → Except JsError (List LintMessage)
  | [] => Except.ok []
  | m :: rest =>
    match f m with
    | Except.error e => Except.error e
    | Except.ok m2 =>
      match mapMessages f rest with
      | Except.error e => Except.error e
      | Except.ok ms => Except.ok (m2 :: ms)

/-- Model of transformMessages. -/
def transformMessages (args : SeatbeltArgs) (seatbeltFile : SeatbeltFile) (filename : String)
    (messages : List LintMessage) (ruleToErrorCount : List (RuleId × Int)) :
    Except JsError (List LintMessage) :=
  if args.disable then Except.ok messages
  else
    let ruleToMaxErrorCount := SeatbeltFile.getMaxErrors seatbeltFile filename
    let allowIncrease := RuleSet.nonempty args.allowIncreaseRules
    if ruleToMaxErrorCount.isNone && !allowIncrease then Except.ok messages
    else mapMessages (transformOneMessage args ruleToMaxErrorCount filename ruleToErrorCount) messages

/-- Sequential map building the synthetic frozen-inconsistency messages; the
callback can throw the internal bug error. -/
def mapRemovedRules (f : RuleId → Except JsError LintMessage) :
    List RuleId → Except JsError (List LintMessage)
  | [] => Except.ok []
  | r :: rest =>
    match f r with
    | Except.error e => Except.error e
    | Except.ok m =>
      match mapRemovedRules f rest with
      | Except.error e => Except.error e
      | Except.ok ms => Except.ok (m :: ms)

/-- Model of maybeWriteStateUpdate.  Returns the synthetic messages (if any)
together with the updated store.  The local ruleToMaxErrorCount of the source
is a live reference into the store's cache, so after updateMaxErrors the
frozen branch reads the mutated map: with every removed rule deleted from
that same map, the lookup necessarily misses and the branch throws the
internal bug error.  Only the none/some status of the reference is fixed
before the update. -/
def maybeWriteStateUpdate (args : SeatbeltArgs) (stateFile : SeatbeltFile) (filename : String)
    (ruleToErrorCount : List (RuleId × Int)) (fsContent : Option String) :
    Except JsError (Option (List LintMessage) × SeatbeltFile) :=
  if args.disable then Except.ok (none, stateFile)
  else
    let afterRead :=
      if args.threadsafe then
        (SeatbeltFile.readSyncInstance stateFile fsContent).mapError lineErrorToJsError
      else Except.ok stateFile
    match afterRead with
    | Except.error e => Except.error e
    | Except.ok stateFile =>
      let hadMapping := (SeatbeltFile.getMaxErrors stateFile filename).isSome
      let step := SeatbeltFile.updateMaxErrors stateFile filename args ruleToErrorCount
      let st2 := step.1
      let result := step.2
      if !args.frozen then Except.ok (none, (SeatbeltFile.flushChanges st2).1)
      else if !result.removedRules.isEmpty then
        let lookupAfter := fun (ruleId : RuleId) =>
          if hadMapping then
            (SeatbeltFile.getMaxErrors st2 filename).bind (fun mm => mapGet mm ruleId)
          else none
        match
          mapRemovedRules
            (fun ruleId =>
              match lookupAfter ruleId with
              | none =>
                Except.error (JsError.mk
                  (pkgName ++ " bug: maxErrorCount not found for removed frozen rule " ++ ruleId)
                  false)
              | some maxErrorCount =>
                Except.ok (LintMessage.mk (some ruleId) 2 1 0
                  (messageFrozenUnderMaxErrorCountText filename 0 maxErrorCount) 0))
            result.removedRules
        with
        | Except.error e => Except.error e
        | Except.ok msgs => Except.ok (some msgs, st2)
      else Except.ok (none, st2)

/-- Model of handleProcessingError: annotate the error with context unless it
was annotated before, then rethrow unconditionally (the function's returned
value is unreachable in the source). -/
def handleProcessingError (filename : String) (e : JsError) : Except JsError LintMessage :=
  let e2 :=
    if !e.modified then
      JsError.mk
        (appendErrorContext
          (appendErrorContext e ("while processing `" ++ filename ++ "`"))
          ("this may be a bug in " ++ pkgName ++ "@" ++ pkgVersion
            ++ " or a problem with your setup")).message
        true
    else e
  Except.error e2

/-- Model of SeatbeltProcessor.postprocess for one linted file.  The plugin
globals (argument registry, store cache, CLI detection) are outside the
embedding: the effective args and the shared store are passed in directly,
and the host is taken to be the ESLint CLI so the initial readSync happens
only under args.threadsafe.  The nested try/catch structure of the source is
modelled by matching on the Except values: both catch blocks call
handleProcessingError, which always rethrows, so its .ok branches are dead
code kept for fidelity.  On the error paths the store component reflects the
pre-update store even though the real implementation may have mutated its
caches in place before throwing; no claim inspects the store of an error
result. -/
def postprocess (args : SeatbeltArgs) (seatbeltFile : SeatbeltFile) (filename : String)
    (messages : List LintMessage) (fsContent : Option String) :
    Except JsError (List LintMessage × SeatbeltFile) :=
  if args.disable then Except.ok (messages, seatbeltFile)
  else
    let readStage :=
      if args.threadsafe then
        (SeatbeltFile.readSyncInstance seatbeltFile fsContent).mapError lineErrorToJsError
      else Except.ok seatbeltFile
    match readStage with
    | Except.error e => Except.error e
    | Except.ok sf =>
      let ruleToErrorCount := countRuleIds messages
      let sf := SeatbeltFile.materialize sf filename
      match transformMessages args sf filename messages ruleToErrorCount with
      | Except.error e =>
        match handleProcessingError filename e with
        | Except.ok m => Except.ok (messages ++ [m], sf)
        | Except.error e2 => Except.error e2
      | Except.ok transformed =>
        match maybeWriteStateUpdate args sf filename ruleToErrorCount fsContent with
        | Except.ok (some additionalMessages, st2) =>
          Except.ok (transformed ++ additionalMessages, st2)
        | Except.ok (none, st2) => Except.ok (transformed, st2)
        | Except.error e =>
          match handleProcessingError filename e with
          | Except.ok m => Except.ok (transformed ++ [m], sf)
          | Except.error e2 =>
            match handleProcessingError filename e2 with
            | Except.ok m2 => Except.ok (messages ++ [m2], sf)
            | Except.error e3 => Except.error e3

/-! ## Concrete scenario fixtures -/

/-- A frozen policy with no keep or increase rules. -/
def frozenArgs : SeatbeltArgs :=
  SeatbeltArgs.mk "eslint.seatbelt.tsv" (RuleSet.ofList []) (RuleSet.ofList []) true false false false

/-- A non-frozen policy keeping rule-c only. -/
def keepRuleCArgs : SeatbeltArgs :=
  SeatbeltArgs.mk "eslint.seatbelt.tsv" (RuleSet.ofList ["rule-c"]) (RuleSet.ofList []) false false false false

/-- Store parsed from a single record granting rule r five errors in a.ts. -/
def storeRuleFive : SeatbeltFile :=
  SeatbeltFile.mk "eslint.seatbelt.tsv"
    [("a.ts", SeatbeltStateFileData.mk none
      [SeatbeltFileLine.mk (some "\"a.ts\"\t\"r\"\t5\n") "a.ts" "r" 5])]
    "" false

/-- Store parsed from a single record granting rule-x five errors in a.ts. -/
def storeRuleXFive : SeatbeltFile :=
  SeatbeltFile.mk "eslint.seatbelt.tsv"
    [("a.ts", SeatbeltStateFileData.mk none
      [SeatbeltFileLine.mk (some "\"a.ts\"\t\"rule-x\"\t5\n") "a.ts" "rule-x" 5])]
    "" false

/-- Store parsed from three records for src/file.ts: rule-a 5, rule-b 3,
rule-c 99. -/
def storeThreeRules : SeatbeltFile :=
  SeatbeltFile.mk "f.tsv"
    [("src/file.ts", SeatbeltStateFileData.mk none
      [SeatbeltFileLine.mk (some "\"src/file.ts\"\t\"rule-a\"\t5\n") "src/file.ts" "rule-a" 5,
       SeatbeltFileLine.mk (some "\"src/file.ts\"\t\"rule-b\"\t3\n") "src/file.ts" "rule-b" 3,
       SeatbeltFileLine.mk (some "\"src/file.ts\"\t\"rule-c\"\t99\n") "src/file.ts" "rule-c" 99])]
    "" false

/-- An error-severity diagnostic for rule-x at the given line. -/
def ruleXError (line : Nat) : LintMessage := LintMessage.mk (some "rule-x") 2 line 4 "bad" 0

/-! ## Claim theorems -/

/-- Claim C1 (code bug evidence).  The claim states that under a frozen
policy updateMaxErrors never changes the serialized output of the store.  The
code violates this: updateMaxErrors aliases the store's cached allowance map
and writes the tightened count into it even when frozen (while reporting
changed = false and logging that it did not update), so toDataString differs
afterwards.  At the failing input the store granting rule r five errors is
reconciled, frozen, against three observed errors: the serialized output
changes from the record with 5 to the record with 3. -/
theorem frozen_update_mutates_toDataString :
    SeatbeltFile.parse "eslint.seatbelt.tsv" "\"a.ts\"\t\"r\"\t5\n" = Except.ok storeRuleFive ∧
    (SeatbeltFile.updateMaxErrors storeRuleFive "a.ts" frozenArgs [("r", 3)]).1.changed = false ∧
    SeatbeltFile.toDataString (SeatbeltFile.updateMaxErrors storeRuleFive "a.ts" frozenArgs [("r", 3)]).1
      = "\n\n\"a.ts\"\t\"r\"\t3\n" ∧
    SeatbeltFile.toDataString storeRuleFive = "\n\n\"a.ts\"\t\"r\"\t5\n" ∧
    SeatbeltFile.toDataString (SeatbeltFile.updateMaxErrors storeRuleFive "a.ts" frozenArgs [("r", 3)]).1
      ≠ SeatbeltFile.toDataString storeRuleFive :=
  ⟨rfl, rfl, rfl, rfl, by decide⟩

/-- Claim C2 (counterexample).  With stored allowance 5 for rule-x, frozen
policy and 3 observed countable errors, the claim asserts the stored
allowance stays 5 and the returned list contains a synthetic file-level
error-severity diagnostic at line 1 column 0.  Neither holds: the in-memory
allowance is mutated to 3 (via the aliased cache), and no message in the
result is an error-severity line-1 column-0 diagnostic. -/
theorem frozen_under_allowance_no_synthetic_diagnostic :
    SeatbeltFile.parse "eslint.seatbelt.tsv" "\"a.ts\"\t\"rule-x\"\t5\n" = Except.ok storeRuleXFive ∧
    (postprocess frozenArgs storeRuleXFive "a.ts" [ruleXError 10, ruleXError 20, ruleXError 30] none).toOption.map
        (fun r => SeatbeltFile.allowance r.2 "a.ts" "rule-x") = some 3 ∧
    (postprocess frozenArgs storeRuleXFive "a.ts" [ruleXError 10, ruleXError 20, ruleXError 30] none).toOption.map
        (fun r => r.1.any (fun m => m.severity == 2 && m.line == 1 && m.column == 0)) = some false :=
  ⟨rfl, rfl, rfl⟩

/-- The frozen annotation text the three diagnostics of the C2 scenario
receive. -/
def frozenExpected5Found3 (original : String) : String :=
  original ++ "\n[eslint-seatbelt]: SEATBELT_FROZEN: Expected 5 errors, found 3.\nIf you fixed -2 errors, thank you, but you'll need to update the seatbelt file to match.\nTry running eslint, then committing a.ts."

/-- Claim C2 (amended).  With stored allowance 5 for rule-x, frozen policy
and 3 observed countable errors: no synthetic file-level diagnostic is added
(such diagnostics arise only for rules absent from observation); instead each
of the three diagnostics is demoted to warning severity and annotated with
the expected-versus-found text and remediation instructions; the dirty flag
stays false so nothing is flushed, but the in-memory cached allowance is
mutated to 3 through the aliased map. -/
theorem frozen_under_allowance_annotates_in_place :
    postprocess frozenArgs storeRuleXFive "a.ts" [ruleXError 10, ruleXError 20, ruleXError 30] none
      = Except.ok
        ([LintMessage.mk (some "rule-x") 1 10 4 (frozenExpected5Found3 "bad") 0,
          LintMessage.mk (some "rule-x") 1 20 4 (frozenExpected5Found3 "bad") 0,
          LintMessage.mk (some "rule-x") 1 30 4 (frozenExpected5Found3 "bad") 0],
         SeatbeltFile.mk "eslint.seatbelt.tsv"
           [("a.ts", SeatbeltStateFileData.mk (some [("rule-x", 3)])
             [SeatbeltFileLine.mk (some "\"a.ts\"\t\"rule-x\"\t5\n") "a.ts" "rule-x" 5])]
           "" false) :=
  rfl

/-- Claim C4.  Stored allowances rule-a 5, rule-b 3, rule-c 99; observation
rule-a 3 only; keepRules contains rule-c, allowIncreaseRules empty, not
frozen: the resulting mapping is exactly rule-a 3 and rule-c 99 (rule-b
removed, rule-a tightened, rule-c preserved) and the dirty flag is set. -/
theorem update_tightens_removes_and_keeps :
    SeatbeltFile.parse "f.tsv"
        "\"src/file.ts\"\t\"rule-a\"\t5\n\"src/file.ts\"\t\"rule-b\"\t3\n\"src/file.ts\"\t\"rule-c\"\t99\n"
      = Except.ok storeThreeRules ∧
    SeatbeltFile.getMaxErrors
        (SeatbeltFile.updateMaxErrors storeThreeRules "src/file.ts" keepRuleCArgs [("rule-a", 3)]).1
        "src/file.ts"
      = some [("rule-a", 3), ("rule-c", 99)] ∧
    (SeatbeltFile.updateMaxErrors storeThreeRules "src/file.ts" keepRuleCArgs [("rule-a", 3)]).1.changed
      = true ∧
    (SeatbeltFile.updateMaxErrors storeThreeRules "src/file.ts" keepRuleCArgs [("rule-a", 3)]).2.removedRules
      = ["rule-b"] :=
  ⟨rfl, rfl, rfl, rfl⟩

/-- Claim C5 (code bug evidence).  The claim states that internal invariant
violations during message processing recover by returning the original
diagnostics plus an appended bug notice.  The code cannot recover:
handleProcessingError rethrows unconditionally, so its callers' recovery
returns are dead code.  At the failing input (frozen policy, stored rule-x
allowance 5, no observed messages) the frozen branch of maybeWriteStateUpdate
reads the aliased allowance map after the removal pass deleted rule-x from
it, raises the internal bug error, and postprocess propagates the annotated
exception instead of returning messages. -/
theorem internal_error_propagates_out_of_postprocess :
    postprocess frozenArgs storeRuleXFive "a.ts" [] none
      = Except.error (JsError.mk
          "eslint-seatbelt bug: maxErrorCount not found for removed frozen rule rule-x\n  while processing `a.ts`\n  this may be a bug in eslint-seatbelt@0.0.0 or a problem with your setup"
          true) :=
  rfl

/-- Claim C6 (counterexample).  The claim states a negative third field is a
parse error.  It is not: decodeLine parses the maxErrors column with a bare
JSON parse and performs no range check, so a line whose third field is -5
decodes successfully with maxErrors equal to -5. -/
theorem decodeLine_accepts_negative_maxErrors :
    decodeLine ("\"a.ts\"\t\"r\"\t-5").data 0
      = Except.ok (SeatbeltFileLine.mk (some "\"a.ts\"\t\"r\"\t-5") "a.ts" "r" (-5)) :=
  rfl

/-- Claim C6 (amended).  Decoding validates only that each field parses as
JSON (string, string, number): a record line whose third field is a negative
integer decodes successfully, and the resulting store holds the negative
allowance, which then flows into the effective allowance lookup. -/
theorem parse_accepts_negative_maxErrors :
    SeatbeltFile.parse "f.tsv" "\"a.ts\"\t\"r\"\t-5\n"
      = Except.ok (SeatbeltFile.mk "f.tsv"
          [("a.ts", SeatbeltStateFileData.mk none
            [SeatbeltFileLine.mk (some "\"a.ts\"\t\"r\"\t-5\n") "a.ts" "r" (-5)])]
          "" false) ∧
    SeatbeltFile.allowance
        (SeatbeltFile.mk "f.tsv"
          [("a.ts", SeatbeltStateFileData.mk none
            [SeatbeltFileLine.mk (some "\"a.ts\"\t\"r\"\t-5\n") "a.ts" "r" (-5)])]
          "" false)
        "a.ts" "r" = -5 :=
  ⟨rfl, rfl⟩

/-- Claim C7 (counterexample).  The claim states the parse error identifies
the 1-based number of the offending line in the input text.  It does not:
the index is taken in the sequence of kept (non-comment, non-blank) lines, so
with a leading comment line the malformed second input line is reported as
line 1. -/
theorem parse_error_line_number_skips_comments :
    SeatbeltFile.parse "f.tsv" "# header\n\"a.ts\"\tx"
      = Except.error (LineError.mk
          "Expected 3 tab-separated JSON strings, instead have 2" 1 "\"a.ts\"\tx") ∧
    (splitAfterNL ("# header\n\"a.ts\"\tx").data).get? 1 = some ("\"a.ts\"\tx").data :=
  ⟨rfl, rfl⟩

/-- Claim C10.  The instance-level readSync unconditionally replaces the
in-memory data with the state parsed from the backing path and clears the
dirty flag, discarding unflushed mutations; when the backing file does not
exist (fsContent is none, modelling ENOENT) the store is reset to an empty
store bound to the same path instead of failing. -/
theorem readSync_replaces_data_and_clears_dirty (st next : SeatbeltFile) (text : String)
    (hparse : SeatbeltFile.parse st.filename text = Except.ok next) :
    SeatbeltFile.readSyncInstance st (some text)
      = Except.ok (SeatbeltFile.mk st.filename next.data st.comments false) ∧
    SeatbeltFile.readSyncInstance st none
      = Except.ok (SeatbeltFile.mk st.filename [] st.comments false) := by
  constructor
  · simp [SeatbeltFile.readSyncInstance, SeatbeltFile.openSync, hparse, Except.map]
  · rfl

/-- Witness for claim C10: a store with junk data and a set dirty flag is
reset by readSync from a concrete one-record text. -/
theorem readSync_replaces_data_and_clears_dirty_witness :
    SeatbeltFile.readSyncInstance
        (SeatbeltFile.mk "f.tsv" [("junk.ts", SeatbeltStateFileData.mk (some [("r", 9)]) [])] "# c" true)
        (some "\"a.ts\"\t\"r\"\t5\n")
      = Except.ok (SeatbeltFile.mk "f.tsv"
          [("a.ts", SeatbeltStateFileData.mk none
            [SeatbeltFileLine.mk (some "\"a.ts\"\t\"r\"\t5\n") "a.ts" "r" 5])]
          "# c" false) :=
  (readSync_replaces_data_and_clears_dirty
      (SeatbeltFile.mk "f.tsv" [("junk.ts", SeatbeltStateFileData.mk (some [("r", 9)]) [])] "# c" true)
      (SeatbeltFile.mk "f.tsv"
        [("a.ts", SeatbeltStateFileData.mk none
          [SeatbeltFileLine.mk (some "\"a.ts\"\t\"r\"\t5\n") "a.ts" "r" 5])]
        "" false)
      "\"a.ts\"\t\"r\"\t5\n" rfl).1

/-! ## Association list lemmas -/

theorem mapGet_mapSet_self [DecidableEq α] (m : List (α × β)) (k : α) (v : β) :
    mapGet (mapSet m k v) k = some v := by
  induction m with
  | nil => simp [mapGet, mapSet]
  | cons e rest ih =>
    obtain ⟨k2, v2⟩ := e
    by_cases h : k2 = k
    · simp only [mapSet, if_pos h, mapGet, if_pos h]
    · simp only [mapSet, if_neg h, mapGet, if_neg h]
      exact ih

theorem mapGet_mapSet_ne [DecidableEq α] (m : List (α × β)) (k k2 : α) (v : β)
    (h : k2 ≠ k) : mapGet (mapSet m k v) k2 = mapGet m k2 := by
  induction m with
  | nil =>
    simp only [mapSet, mapGet, if_neg (fun he : k = k2 => h he.symm)]
  | cons e rest ih =>
    obtain ⟨k3, v3⟩ := e
    by_cases h3 : k3 = k
    · have hne : ¬(k3 = k2) := by
        rw [h3]
        exact fun he => h he.symm
      simp only [mapSet, if_pos h3, mapGet, if_neg hne]
    · by_cases h2 : k3 = k2
      · simp only [mapSet, if_neg h3, mapGet, if_pos h2]
      · simp only [mapSet, if_neg h3, mapGet, if_neg h2]
        exact ih

theorem mapGet_eq_none_of_not_mem [DecidableEq α] (m : List (α × β)) (k : α)
    (h : k ∉ m.map Prod.fst) : mapGet m k = none := by
  induction m with
  | nil => rfl
  | cons e rest ih =>
    obtain ⟨k2, v2⟩ := e
    simp only [List.map_cons, List.mem_cons] at h
    push_neg at h
    have hne : ¬(k2 = k) := fun he => h.1 he.symm
    simp only [mapGet, if_neg hne]
    exact ih h.2

theorem mem_keys_of_mem_keys_mapSet [DecidableEq α] {m : List (α × β)} {k x : α} {v : β}
    (h : x ∈ (mapSet m k v).map Prod.fst) : x ∈ m.map Prod.fst ∨ x = k := by
  induction m with
  | nil =>
    simp only [mapSet, List.map_cons, List.map_nil, List.mem_cons, List.not_mem_nil,
      or_false] at h
    exact Or.inr h
  | cons e rest ih =>
    obtain ⟨k2, v2⟩ := e
    by_cases h2 : k2 = k
    · simp only [mapSet, if_pos h2, List.map_cons, List.mem_cons] at h
      rcases h with h | h
      · exact Or.inr (h.trans h2)
      · exact Or.inl (List.mem_cons_of_mem _ h)
    · simp only [mapSet, if_neg h2, List.map_cons, List.mem_cons] at h
      rcases h with h | h
      · exact Or.inl (by simp [h])
      · rcases ih h with h3 | h3
        · exact Or.inl (List.mem_cons_of_mem _ h3)
        · exact Or.inr h3

theorem nodup_keys_mapSet [DecidableEq α] {m : List (α × β)} (k : α) (v : β)
    (h : (m.map Prod.fst).Nodup) : ((mapSet m k v).map Prod.fst).Nodup := by
  induction m with
  | nil => simp [mapSet]
  | cons e rest ih =>
    obtain ⟨k2, v2⟩ := e
    simp only [List.map_cons, List.nodup_cons] at h
    by_cases h2 : k2 = k
    · simp only [mapSet, if_pos h2, List.map_cons, List.nodup_cons]
      exact h
    · simp only [mapSet, if_neg h2, List.map_cons, List.nodup_cons]
      refine ⟨fun hx => ?_, ih h.2⟩
      rcases mem_keys_of_mem_keys_mapSet hx with h3 | h3
      · exact h.1 h3
      · exact h2 h3

theorem mapGet_append_right [DecidableEq α] (l1 l2 : List (α × β)) (k : α)
    (h : mapGet l1 k = none) : mapGet (l1 ++ l2) k = mapGet l2 k := by
  induction l1 with
  | nil => rfl
  | cons e rest ih =>
    obtain ⟨k2, v2⟩ := e
    by_cases h2 : k2 = k
    · simp only [mapGet, if_pos h2] at h
      cases h
    · simp only [mapGet, if_neg h2] at h
      simp only [List.cons_append, mapGet, if_neg h2]
      exact ih h

/-! ## Reconcile loop lemmas (claim C3) -/

theorem reconcileStep_lookup_ne (args : SeatbeltArgs) (acc : List (RuleId × Int) × Nat × Nat)
    (k r : RuleId) (c : Int) (h : r ≠ k) :
    mapGet (SeatbeltFile.reconcileStep args acc (k, c)).1 r = mapGet acc.1 r := by
  simp only [SeatbeltFile.reconcileStep]
  split_ifs <;> first
    | rfl
    | exact mapGet_mapSet_ne acc.1 k r c h

theorem reconcile_foldl_lookup_not_mem (args : SeatbeltArgs) (r : RuleId) :
    ∀ (counts : List (RuleId × Int)), r ∉ counts.map Prod.fst →
      ∀ acc : List (RuleId × Int) × Nat × Nat,
        mapGet (counts.foldl (SeatbeltFile.reconcileStep args) acc).1 r = mapGet acc.1 r
  | [], _, _ => rfl
  | (k, c2) :: rest, h, acc => by
    simp only [List.map_cons, List.mem_cons] at h
    push_neg at h
    rw [List.foldl_cons, reconcile_foldl_lookup_not_mem args r rest h.2]
    exact reconcileStep_lookup_ne args acc k r c2 h.1

theorem reconcile_foldl_lookup (args : SeatbeltArgs) (r : RuleId) (c : Int)
    (hinc : SeatbeltArgs.ruleSetHas args.allowIncreaseRules r = false) :
    ∀ (counts : List (RuleId × Int)), (counts.map Prod.fst).Nodup → mapGet counts r = some c →
      ∀ acc : List (RuleId × Int) × Nat × Nat,
        mapGet (counts.foldl (SeatbeltFile.reconcileStep args) acc).1 r =
          if c < (mapGet acc.1 r).getD 0 then some c else mapGet acc.1 r
  | [], _, hobs => by cases hobs
  | (k, c2) :: rest, hnodup, hobs => by
    intro acc
    simp only [List.map_cons, List.nodup_cons] at hnodup
    by_cases hk : k = r
    · subst hk
      have hc : c2 = c := by simpa [mapGet] using hobs
      subst hc
      rw [List.foldl_cons, reconcile_foldl_lookup_not_mem args k rest hnodup.1]
      simp only [SeatbeltFile.reconcileStep, hinc, Bool.or_false, decide_eq_true_eq]
      by_cases h1 : c2 = (mapGet acc.1 k).getD 0
      · rw [if_pos h1, if_neg (by omega : ¬(c2 < (mapGet acc.1 k).getD 0))]
      · rw [if_neg h1]
        by_cases h2 : c2 < (mapGet acc.1 k).getD 0
        · rw [if_pos h2, if_pos h2]
          exact mapGet_mapSet_self acc.1 k c2
        · rw [if_neg h2, if_neg h2]
    · have hobs2 : mapGet rest r = some c := by
        simpa [mapGet, hk] using hobs
      rw [List.foldl_cons,
        reconcile_foldl_lookup args r c hinc rest hnodup.2 hobs2
          (SeatbeltFile.reconcileStep args acc (k, c2)),
        reconcileStep_lookup_ne args acc k r c2 (fun he => hk he.symm)]

theorem reconcile_foldl_nodup (args : SeatbeltArgs) :
    ∀ (counts : List (RuleId × Int)) (acc : List (RuleId × Int) × Nat × Nat),
      (acc.1.map Prod.fst).Nodup →
      (((counts.foldl (SeatbeltFile.reconcileStep args) acc).1).map Prod.fst).Nodup
  | [], _, h => h
  | (k, c2) :: rest, acc, h => by
    rw [List.foldl_cons]
    refine reconcile_foldl_nodup args rest _ ?_
    simp only [SeatbeltFile.reconcileStep]
    split_ifs <;> first
      | exact h
      | exact nodup_keys_mapSet k c2 h

theorem mem_keys_of_mem_keys_filter (p : RuleId × Int → Bool) (m : List (RuleId × Int))
    (r : RuleId) (h : r ∈ (m.filter p).map Prod.fst) : r ∈ m.map Prod.fst := by
  rcases List.mem_map.mp h with ⟨e, he, hfst⟩
  exact List.mem_map.mpr ⟨e, List.mem_of_mem_filter he, hfst⟩

theorem filter_removal_lookup_getD (args : SeatbeltArgs) (counts : List (RuleId × Int))
    (r : RuleId) (hhas : mapHas counts r = true) :
    ∀ (m : List (RuleId × Int)), (m.map Prod.fst).Nodup →
      (mapGet (m.filter (fun e => !SeatbeltFile.removedByPass args counts e)) r).getD 0
        = (mapGet m r).getD 0
  | [], _ => rfl
  | (k, v) :: rest, hnodup => by
    simp only [List.map_cons, List.nodup_cons] at hnodup
    by_cases hk : k = r
    · subst hk
      by_cases hrem : SeatbeltFile.removedByPass args counts (k, v) = true
      · have hv : v = 0 := by
          simp only [SeatbeltFile.removedByPass, SeatbeltFile.shouldRemoveRule, hhas,
            Bool.not_true, Bool.or_false, Bool.and_eq_true, decide_eq_true_eq] at hrem
          exact hrem.1
        have hnone : mapGet (rest.filter (fun e => !SeatbeltFile.removedByPass args counts e)) k
            = none := by
          refine mapGet_eq_none_of_not_mem _ _ (fun hmem => hnodup.1 ?_)
          exact mem_keys_of_mem_keys_filter _ rest k hmem
        have hfilter : List.filter (fun e => !SeatbeltFile.removedByPass args counts e)
            ((k, v) :: rest) = rest.filter (fun e => !SeatbeltFile.removedByPass args counts e) := by
          simp [List.filter_cons, hrem]
        rw [hfilter, hnone]
        simp [mapGet, hv]
      · have hfilter : List.filter (fun e => !SeatbeltFile.removedByPass args counts e)
            ((k, v) :: rest)
            = (k, v) :: rest.filter (fun e => !SeatbeltFile.removedByPass args counts e) := by
          simp [List.filter_cons, hrem]
        rw [hfilter]
        simp [mapGet]
    · by_cases hrem : SeatbeltFile.removedByPass args counts (k, v) = true
      · have hfilter : List.filter (fun e => !SeatbeltFile.removedByPass args counts e)
            ((k, v) :: rest) = rest.filter (fun e => !SeatbeltFile.removedByPass args counts e) := by
          simp [List.filter_cons, hrem]
        rw [hfilter, filter_removal_lookup_getD args counts r hhas rest hnodup.2]
        simp [mapGet, hk]
      · have hfilter : List.filter (fun e => !SeatbeltFile.removedByPass args counts e)
            ((k, v) :: rest)
            = (k, v) :: rest.filter (fun e => !SeatbeltFile.removedByPass args counts e) := by
          simp [List.filter_cons, hrem]
        rw [hfilter]
        simp only [mapGet, if_neg hk]
        exact filter_removal_lookup_getD args counts r hhas rest hnodup.2

theorem removalPass_lookup_getD (args : SeatbeltArgs) (counts m : List (RuleId × Int))
    (r : RuleId) (hnodup : (m.map Prod.fst).Nodup) (hhas : mapHas counts r = true) :
    (mapGet (SeatbeltFile.removalPass args counts m).1 r).getD 0 = (mapGet m r).getD 0 := by
  simp only [SeatbeltFile.removalPass]
  split_ifs with h
  · exact filter_removal_lookup_getD args counts r hhas m hnodup
  · rfl

theorem materialize_of_none (st : SeatbeltFile) (filename : SourceFileName)
    (hfs : mapGet st.data filename = none) : SeatbeltFile.materialize st filename = st := by
  simp [SeatbeltFile.materialize, hfs]

theorem updateMaxErrors_fst_of_none (st : SeatbeltFile) (filename : SourceFileName)
    (args : SeatbeltArgs) (counts : List (RuleId × Int))
    (hfs : mapGet st.data filename = none) :
    (SeatbeltFile.updateMaxErrors st filename args counts).1
      = (if ((counts.foldl (SeatbeltFile.reconcileStep args) ([], 0, 0)).2.1 > 0
              || (counts.foldl (SeatbeltFile.reconcileStep args) ([], 0, 0)).2.2 > 0
              || !(SeatbeltFile.removalPass args counts
                    (counts.foldl (SeatbeltFile.reconcileStep args) ([], 0, 0)).1).2.isEmpty)
            && !args.frozen then
          SeatbeltFile.mk st.filename
            (st.data ++ [(filename, SeatbeltStateFileData.mk
              (some (SeatbeltFile.removalPass args counts
                (counts.foldl (SeatbeltFile.reconcileStep args) ([], 0, 0)).1).1) [])])
            st.comments true
        else st) := by
  simp only [SeatbeltFile.updateMaxErrors, materialize_of_none st filename hfs, hfs]

theorem updateMaxErrors_fst_of_some (st : SeatbeltFile) (filename : SourceFileName)
    (args : SeatbeltArgs) (counts : List (RuleId × Int)) (fs : SeatbeltStateFileData)
    (hfs : mapGet st.data filename = some fs) :
    (SeatbeltFile.updateMaxErrors st filename args counts).1
      = SeatbeltFile.mk st.filename
          (mapSet
            (mapSet st.data filename
              (SeatbeltStateFileData.mk (some (SeatbeltFile.fileMapping fs)) fs.lines))
            filename
            (SeatbeltStateFileData.mk
              (some (SeatbeltFile.removalPass args counts
                (counts.foldl (SeatbeltFile.reconcileStep args)
                  (SeatbeltFile.fileMapping fs, 0, 0)).1).1)
              fs.lines))
          st.comments
          (st.changed
            || (((counts.foldl (SeatbeltFile.reconcileStep args)
                    (SeatbeltFile.fileMapping fs, 0, 0)).2.1 > 0
                 || (counts.foldl (SeatbeltFile.reconcileStep args)
                      (SeatbeltFile.fileMapping fs, 0, 0)).2.2 > 0
                 || !(SeatbeltFile.removalPass args counts
                      (counts.foldl (SeatbeltFile.reconcileStep args)
                        (SeatbeltFile.fileMapping fs, 0, 0)).1).2.isEmpty)
                && !args.frozen)) := by
  have hmat : SeatbeltFile.materialize st filename
      = SeatbeltFile.mk st.filename
          (mapSet st.data filename
            (SeatbeltStateFileData.mk (some (SeatbeltFile.fileMapping fs)) fs.lines))
          st.comments st.changed := by
    simp [SeatbeltFile.materialize, hfs]
  simp only [SeatbeltFile.updateMaxErrors, hmat, mapGet_mapSet_self,
    SeatbeltFile.fileMapping]

/-- Claim C3.  For every call to updateMaxErrors where the rule is observed
and not covered by allowIncreaseRules: if the observed count is strictly above
the stored allowance the effective allowance of the (file, rule) pair is
unchanged; and in every case the effective allowance never increases, giving
non-increasing allowances across successive reconciliations while the rule
stays observed.  (Records with count 0 are read back as allowance 0, matching
the source's zero-default lookup; the wellformedness hypothesis says the
file's mapping has no duplicate rule keys, which holds for every store the
program builds.) -/
theorem updateMaxErrors_ratchet (st : SeatbeltFile) (filename : SourceFileName)
    (args : SeatbeltArgs) (counts : List (RuleId × Int)) (r : RuleId) (c : Int)
    (hwf : ∀ m, SeatbeltFile.getMaxErrors st filename = some m → (m.map Prod.fst).Nodup)
    (hnodup : (counts.map Prod.fst).Nodup)
    (hinc : SeatbeltArgs.ruleSetHas args.allowIncreaseRules r = false)
    (hobs : mapGet counts r = some c) :
    (c > SeatbeltFile.allowance st filename r →
      SeatbeltFile.allowance (SeatbeltFile.updateMaxErrors st filename args counts).1 filename r
        = SeatbeltFile.allowance st filename r) ∧
    SeatbeltFile.allowance (SeatbeltFile.updateMaxErrors st filename args counts).1 filename r
      ≤ SeatbeltFile.allowance st filename r := by
  have hhas : mapHas counts r = true := by simp [mapHas, hobs]
  have key :
      SeatbeltFile.allowance (SeatbeltFile.updateMaxErrors st filename args counts).1 filename r
        = SeatbeltFile.allowance st filename r ∨
      SeatbeltFile.allowance (SeatbeltFile.updateMaxErrors st filename args counts).1 filename r
        = (if c < SeatbeltFile.allowance st filename r then c
           else SeatbeltFile.allowance st filename r) := by
    cases hfs : mapGet st.data filename with
    | none =>
      have ha : SeatbeltFile.allowance st filename r = 0 := by
        simp [SeatbeltFile.allowance, SeatbeltFile.getMaxErrors, hfs]
      rw [updateMaxErrors_fst_of_none st filename args counts hfs]
      by_cases hchanged :
          (((counts.foldl (SeatbeltFile.reconcileStep args) ([], 0, 0)).2.1 > 0
              || (counts.foldl (SeatbeltFile.reconcileStep args) ([], 0, 0)).2.2 > 0
              || !(SeatbeltFile.removalPass args counts
                    (counts.foldl (SeatbeltFile.reconcileStep args) ([], 0, 0)).1).2.isEmpty)
            && !args.frozen) = true
      · rw [if_pos hchanged]
        right
        have hm1 : mapGet (counts.foldl (SeatbeltFile.reconcileStep args) ([], 0, 0)).1 r
            = if c < (0 : Int) then some c else none := by
          simpa [mapGet] using
            reconcile_foldl_lookup args r c hinc counts hnodup hobs ([], 0, 0)
        have hn1 : (((counts.foldl (SeatbeltFile.reconcileStep args) ([], 0, 0)).1).map
            Prod.fst).Nodup := reconcile_foldl_nodup args counts ([], 0, 0) (by simp)
        have hlook : SeatbeltFile.getMaxErrors
            (SeatbeltFile.mk st.filename
              (st.data ++ [(filename, SeatbeltStateFileData.mk
                (some (SeatbeltFile.removalPass args counts
                  (counts.foldl (SeatbeltFile.reconcileStep args) ([], 0, 0)).1).1) [])])
              st.comments true) filename
            = some (SeatbeltFile.removalPass args counts
                (counts.foldl (SeatbeltFile.reconcileStep args) ([], 0, 0)).1).1 := by
          simp [SeatbeltFile.getMaxErrors, mapGet_append_right _ _ _ hfs, mapGet,
            SeatbeltFile.fileMapping]
        rw [ha]
        simp only [SeatbeltFile.allowance, hlook, Option.some_bind]
        rw [removalPass_lookup_getD args counts _ r hn1 hhas, hm1]
        split_ifs with hc
        · simp
        · simp
      · rw [if_neg hchanged]
        left
        rfl
    | some fs =>
      right
      have ha : SeatbeltFile.allowance st filename r
          = (mapGet (SeatbeltFile.fileMapping fs) r).getD 0 := by
        simp [SeatbeltFile.allowance, SeatbeltFile.getMaxErrors, hfs]
      have hn0 : ((SeatbeltFile.fileMapping fs).map Prod.fst).Nodup := by
        refine hwf _ ?_
        simp [SeatbeltFile.getMaxErrors, hfs]
      have hm1 : mapGet (counts.foldl (SeatbeltFile.reconcileStep args)
            (SeatbeltFile.fileMapping fs, 0, 0)).1 r
          = if c < (mapGet (SeatbeltFile.fileMapping fs) r).getD 0 then some c
            else mapGet (SeatbeltFile.fileMapping fs) r :=
        reconcile_foldl_lookup args r c hinc counts hnodup hobs _
      have hn1 : (((counts.foldl (SeatbeltFile.reconcileStep args)
            (SeatbeltFile.fileMapping fs, 0, 0)).1).map Prod.fst).Nodup :=
        reconcile_foldl_nodup args counts _ hn0
      rw [updateMaxErrors_fst_of_some st filename args counts fs hfs]
      have hlook : SeatbeltFile.getMaxErrors
          (SeatbeltFile.mk st.filename
            (mapSet
              (mapSet st.data filename
                (SeatbeltStateFileData.mk (some (SeatbeltFile.fileMapping fs)) fs.lines))
              filename
              (SeatbeltStateFileData.mk
                (some (SeatbeltFile.removalPass args counts
                  (counts.foldl (SeatbeltFile.reconcileStep args)
                    (SeatbeltFile.fileMapping fs, 0, 0)).1).1)
                fs.lines))
            st.comments
            (st.changed
              || (((counts.foldl (SeatbeltFile.reconcileStep args)
                      (SeatbeltFile.fileMapping fs, 0, 0)).2.1 > 0
                   || (counts.foldl (SeatbeltFile.reconcileStep args)
                        (SeatbeltFile.fileMapping fs, 0, 0)).2.2 > 0
                   || !(SeatbeltFile.removalPass args counts
                        (counts.foldl (SeatbeltFile.reconcileStep args)
                          (SeatbeltFile.fileMapping fs, 0, 0)).1).2.isEmpty)
                  && !args.frozen))) filename
          = some (SeatbeltFile.removalPass args counts
              (counts.foldl (SeatbeltFile.reconcileStep args)
                (SeatbeltFile.fileMapping fs, 0, 0)).1).1 := by
        simp [SeatbeltFile.getMaxErrors, mapGet_mapSet_self, SeatbeltFile.fileMapping]
      simp only [SeatbeltFile.allowance, hlook, Option.some_bind]
      rw [removalPass_lookup_getD args counts _ r hn1 hhas, hm1]
      simp only [SeatbeltFile.getMaxErrors, hfs, Option.map_some', Option.some_bind]
      split_ifs with hc
      · simp
      · simp
  rcases key with h | h
  · exact ⟨fun _ => h, le_of_eq h⟩
  · constructor
    · intro hgt
      rw [h, if_neg (by omega)]
    · rw [h]
      split_ifs with hc
      · omega
      · omega

/-- Witness for claim C3: a store with allowance 5 for rule r, observed count
7 above the allowance, no increase rules: the allowance stays 5 and does not
increase. -/
theorem updateMaxErrors_ratchet_witness :
    SeatbeltFile.allowance
        (SeatbeltFile.updateMaxErrors storeRuleFive "a.ts" keepRuleCArgs [("r", 7)]).1 "a.ts" "r"
      = SeatbeltFile.allowance storeRuleFive "a.ts" "r" :=
  (updateMaxErrors_ratchet storeRuleFive "a.ts" keepRuleCArgs [("r", 7)] "r" 7
    (by intro m hm; cases hm; decide) (by decide) (by decide) (by decide)).1 (by decide)

/-! ## Sort lemmas (claim C9) -/

theorem insertSorted_perm (le : α → α → Bool) (x : α) (l : List α) :
    (insertSorted le x l).Perm (x :: l) := by
  induction l with
  | nil => exact List.Perm.refl _
  | cons y ys ih =>
    simp only [insertSorted]
    split_ifs
    · exact List.Perm.refl _
    · exact (ih.cons y).trans (List.Perm.swap x y ys)

theorem sortByLe_perm (le : α → α → Bool) (l : List α) : (sortByLe le l).Perm l := by
  induction l with
  | nil => exact List.Perm.refl _
  | cons x xs ih => exact (insertSorted_perm le x (sortByLe le xs)).trans (ih.cons x)

theorem sorted_insertSorted (le : α → α → Bool)
    (htot : ∀ a b, le a b = true ∨ le b a = true)
    (htrans : ∀ a b c, le a b = true → le b c = true → le a c = true)
    (x : α) (l : List α) (h : List.Sorted (fun a b => le a b = true) l) :
    List.Sorted (fun a b => le a b = true) (insertSorted le x l) := by
  induction l with
  | nil => simp [insertSorted]
  | cons y ys ih =>
    rw [List.sorted_cons] at h
    simp only [insertSorted]
    split_ifs with hxy
    · rw [List.sorted_cons]
      refine ⟨?_, by rw [List.sorted_cons]; exact h⟩
      intro b hb
      rcases List.mem_cons.mp hb with hb | hb
      · exact hb ▸ hxy
      · exact htrans x y b hxy (h.1 b hb)
    · have hyx : le y x = true := by
        rcases htot x y with ht | ht
        · exact absurd ht hxy
        · exact ht
      rw [List.sorted_cons]
      refine ⟨?_, ih h.2⟩
      intro b hb
      have : b ∈ x :: ys := (insertSorted_perm le x ys).mem_iff.mp hb
      rcases List.mem_cons.mp this with hb2 | hb2
      · exact hb2 ▸ hyx
      · exact h.1 b hb2

theorem sorted_sortByLe (le : α → α → Bool)
    (htot : ∀ a b, le a b = true ∨ le b a = true)
    (htrans : ∀ a b c, le a b = true → le b c = true → le a c = true)
    (l : List α) : List.Sorted (fun a b => le a b = true) (sortByLe le l) := by
  induction l with
  | nil => simp [sortByLe]
  | cons x xs ih => exact sorted_insertSorted le htot htrans x (sortByLe le xs) ih

theorem char_toNat_inj {a b : Char} (h : a.toNat = b.toNat) : a = b :=
  Char.ext (UInt32.toNat.inj h)

theorem charListLe_total : ∀ a b : List Char, charListLe a b = true ∨ charListLe b a = true
  | [], _ => Or.inl rfl
  | _ :: _, [] => Or.inr rfl
  | a :: as, b :: bs => by
    by_cases hab : a = b
    · subst hab
      simp only [charListLe, if_pos rfl]
      exact charListLe_total as bs
    · have hne : a.toNat ≠ b.toNat := fun h => hab (char_toNat_inj h)
      have hba : ¬(b = a) := fun h => hab h.symm
      simp only [charListLe, if_neg hab, if_neg hba, decide_eq_true_eq]
      omega

theorem charListLe_trans :
    ∀ a b c : List Char, charListLe a b = true → charListLe b c = true → charListLe a c = true
  | [], _, _, _, _ => rfl
  | _ :: _, [], _, h1, _ => by cases h1
  | _ :: _, _ :: _, [], _, h2 => by cases h2
  | a :: as, b :: bs, c :: cs, h1, h2 => by
    by_cases hab : a = b
    · subst hab
      simp only [charListLe, if_pos rfl] at h1
      by_cases hac : a = c
      · subst hac
        simp only [charListLe, if_pos rfl] at h2 ⊢
        exact charListLe_trans as bs cs h1 h2
      · simp only [charListLe, if_neg hac] at h2 ⊢
        exact h2
    · simp only [charListLe, if_neg hab, decide_eq_true_eq] at h1
      by_cases hbc : b = c
      · subst hbc
        simp only [charListLe, if_neg hab, decide_eq_true_eq]
        exact h1
      · simp only [charListLe, if_neg hbc, decide_eq_true_eq] at h2
        have hac : ¬(a = c) := by
          intro h
          subst h
          omega
        simp only [charListLe, if_neg hac, decide_eq_true_eq]
        omega

theorem charListLe_antisymm :
    ∀ a b : List Char, charListLe a b = true → charListLe b a = true → a = b
  | [], [], _, _ => rfl
  | [], _ :: _, _, h2 => by cases h2
  | _ :: _, [], h1, _ => by cases h1
  | a :: as, b :: bs, h1, h2 => by
    by_cases hab : a = b
    · subst hab
      simp only [charListLe, if_pos rfl] at h1 h2
      rw [charListLe_antisymm as bs h1 h2]
    · have hba : ¬(b = a) := fun h => hab h.symm
      simp only [charListLe, if_neg hab, decide_eq_true_eq] at h1
      simp only [charListLe, if_neg hba, decide_eq_true_eq] at h2
      omega

theorem strLe_total (a b : String) : strLe a b = true ∨ strLe b a = true :=
  charListLe_total a.data b.data

theorem strLe_trans (a b c : String) (h1 : strLe a b = true) (h2 : strLe b c = true) :
    strLe a c = true :=
  charListLe_trans a.data b.data c.data h1 h2

theorem strLe_antisymm (a b : String) (h1 : strLe a b = true) (h2 : strLe b a = true) :
    a = b :=
  String.ext (charListLe_antisymm a.data b.data h1 h2)

/-- Two per-file states denote the same in-memory state: materialized maps
that are permutations of each other, or unmaterialized line lists that are
permutations of each other. -/
def SameFileState (fs1 fs2 : SeatbeltStateFileData) : Prop :=
  (∃ m1 m2, fs1.maxErrors = some m1 ∧ fs2.maxErrors = some m2 ∧ m1.Perm m2) ∨
  (fs1.maxErrors = none ∧ fs2.maxErrors = none ∧ fs1.lines.Perm fs2.lines)

/-- Two stores hold the same in-memory state: same comment block, and the
per-file entries agree up to reordering of the data map and of each per-file
mapping. -/
def SameStoreState (st1 st2 : SeatbeltFile) : Prop :=
  st1.comments = st2.comments ∧
  ∃ mid : List (SourceFileName × SeatbeltStateFileData),
    List.Forall₂ (fun a b => a.1 = b.1 ∧ SameFileState a.2 b.2) st1.data mid ∧
    mid.Perm st2.data

theorem fileStateLines_perm_of_sameFileState (f : SourceFileName)
    (fs1 fs2 : SeatbeltStateFileData) (h : SameFileState fs1 fs2) :
    (SeatbeltFile.fileStateLines f fs1).Perm (SeatbeltFile.fileStateLines f fs2) := by
  rcases h with ⟨m1, m2, h1, h2, hperm⟩ | ⟨h1, h2, hperm⟩
  · simp only [SeatbeltFile.fileStateLines, h1, h2]
    refine List.Perm.map _ ?_
    refine (sortByLe_perm _ _).trans (List.Perm.trans ?_ (sortByLe_perm _ _).symm)
    exact List.Perm.map _ hperm
  · simp only [SeatbeltFile.fileStateLines, h1, h2]
    exact List.Perm.map _ hperm

theorem flatMap_perm_of_forall₂ {α β : Type} (f : α → List β) (R : α → α → Prop)
    (hR : ∀ a b, R a b → (f a).Perm (f b)) :
    ∀ {l1 l2 : List α}, List.Forall₂ R l1 l2 → (l1.flatMap f).Perm (l2.flatMap f) := by
  intro l1 l2 h
  induction h with
  | nil => exact List.Perm.refl _
  | cons hab _ ih => exact (hR _ _ hab).append ih

theorem flatMap_perm_of_perm {α β : Type} (f : α → List β) {l1 l2 : List α}
    (h : l1.Perm l2) : (l1.flatMap f).Perm (l2.flatMap f) :=
  (List.Perm.map f h).flatten

theorem dataLines_perm_of_sameStoreState (st1 st2 : SeatbeltFile)
    (h : SameStoreState st1 st2) :
    (SeatbeltFile.dataLines st1).Perm (SeatbeltFile.dataLines st2) := by
  rcases h with ⟨_, mid, hfa, hperm⟩
  simp only [SeatbeltFile.dataLines]
  refine List.Perm.trans
    (flatMap_perm_of_forall₂ (fun p => SeatbeltFile.fileStateLines p.1 p.2) _ ?_ hfa)
    (flatMap_perm_of_perm (fun p => SeatbeltFile.fileStateLines p.1 p.2) hperm)
  rintro ⟨f1, fs1⟩ ⟨f2, fs2⟩ ⟨hf, hfs⟩
  cases hf
  exact fileStateLines_perm_of_sameFileState f1 fs1 fs2 hfs

/-- Claim C9.  The data lines emitted by toDataString appear in global
lexicographic sorted order over the fully encoded line: the emitted body is
the global sort of all encoded record lines, which is sorted and a
permutation of them; and two stores holding the same in-memory state (same
comments, data entries and per-file maps equal up to reordering) serialize to
identical bytes. -/
theorem toDataString_sorted_and_deterministic :
    (∀ st : SeatbeltFile,
      SeatbeltFile.toDataString st
        = st.comments ++ "\n\n" ++ joinStrings (sortByLe strLe (SeatbeltFile.dataLines st)) ∧
      List.Sorted (fun a b => strLe a b = true) (sortByLe strLe (SeatbeltFile.dataLines st)) ∧
      (sortByLe strLe (SeatbeltFile.dataLines st)).Perm (SeatbeltFile.dataLines st)) ∧
    (∀ st1 st2 : SeatbeltFile, SameStoreState st1 st2 →
      SeatbeltFile.toDataString st1 = SeatbeltFile.toDataString st2) := by
  constructor
  · intro st
    exact ⟨rfl, sorted_sortByLe strLe strLe_total strLe_trans _, sortByLe_perm strLe _⟩
  · intro st1 st2 h
    have hsortEq : sortByLe strLe (SeatbeltFile.dataLines st1)
        = sortByLe strLe (SeatbeltFile.dataLines st2) := by
      haveI : IsAntisymm String (fun a b => strLe a b = true) := ⟨strLe_antisymm⟩
      refine List.eq_of_perm_of_sorted ?_
        (sorted_sortByLe strLe strLe_total strLe_trans _)
        (sorted_sortByLe strLe strLe_total strLe_trans _)
      exact (sortByLe_perm strLe _).trans
        ((dataLines_perm_of_sameStoreState st1 st2 h).trans (sortByLe_perm strLe _).symm)
    simp only [SeatbeltFile.toDataString, hsortEq, h.1]

/-- Witness for claim C9: two stores with reordered data entries and a
reordered per-file map serialize to the same bytes. -/
theorem toDataString_sorted_and_deterministic_witness :
    SeatbeltFile.toDataString (SeatbeltFile.mk "f.tsv"
        [("b.ts", SeatbeltStateFileData.mk (some [("r2", 2), ("r1", 7)]) []),
         ("a.ts", SeatbeltStateFileData.mk (some [("rx", 1)]) [])] "# c" false)
      = SeatbeltFile.toDataString (SeatbeltFile.mk "f.tsv"
        [("a.ts", SeatbeltStateFileData.mk (some [("rx", 1)]) []),
         ("b.ts", SeatbeltStateFileData.mk (some [("r1", 7), ("r2", 2)]) [])] "# c" true) :=
  toDataString_sorted_and_deterministic.2
    (SeatbeltFile.mk "f.tsv"
      [("b.ts", SeatbeltStateFileData.mk (some [("r2", 2), ("r1", 7)]) []),
       ("a.ts", SeatbeltStateFileData.mk (some [("rx", 1)]) [])] "# c" false)
    (SeatbeltFile.mk "f.tsv"
      [("a.ts", SeatbeltStateFileData.mk (some [("rx", 1)]) []),
       ("b.ts", SeatbeltStateFileData.mk (some [("r1", 7), ("r2", 2)]) [])] "# c" true)
    ⟨rfl,
      [("b.ts", SeatbeltStateFileData.mk (some [("r1", 7), ("r2", 2)]) []),
       ("a.ts", SeatbeltStateFileData.mk (some [("rx", 1)]) [])],
      by
        refine List.Forall₂.cons ⟨rfl, Or.inl ⟨_, _, rfl, rfl, ?_⟩⟩
          (List.Forall₂.cons ⟨rfl, Or.inl ⟨_, _, rfl, rfl, List.Perm.refl _⟩⟩ List.Forall₂.nil)
        exact List.Perm.swap _ _ _,
      List.Perm.swap _ _ _⟩

/-! ## Decode error characterization (claim C7) -/

theorem decodeLine_error_of_fieldCount (l : List Char) (i : Nat)
    (h : (splitOnTab l).length ≠ 3) : ∃ e, decodeLine l i = Except.error e := by
  cases hsp : splitOnTab l with
  | nil => exact ⟨_, by simp only [decodeLine, hsp]; rfl⟩
  | cons p0 rest =>
    cases rest with
    | nil => exact ⟨_, by simp only [decodeLine, hsp]; rfl⟩
    | cons p1 rest2 =>
      cases rest2 with
      | nil => exact ⟨_, by simp only [decodeLine, hsp]; rfl⟩
      | cons p2 rest3 =>
        cases rest3 with
        | nil =>
          rw [hsp] at h
          simp at h
        | cons p3 rest4 => exact ⟨_, by simp only [decodeLine, hsp]; rfl⟩

theorem decodeLine_error_fields (l : List Char) (i : Nat) (e : LineError)
    (h : decodeLine l i = Except.error e) :
    e.lineNumber = i + 1 ∧ e.content = String.mk (trimChars l) := by
  unfold decodeLine at h
  split at h
  · split at h
    · cases h
      exact ⟨rfl, rfl⟩
    · split at h
      · cases h
        exact ⟨rfl, rfl⟩
      · split at h
        · cases h
          exact ⟨rfl, rfl⟩
        · cases h
  · cases h
    exact ⟨rfl, rfl⟩

theorem decodeLinesFrom_error (e : LineError) :
    ∀ (ls : List (List Char)) (i : Nat),
      SeatbeltFile.decodeLinesFrom ls i = Except.error e →
      ∃ k l, ls.get? k = some l ∧ decodeLine l (i + k) = Except.error e ∧
        ∀ j l2, j < k → ls.get? j = some l2 → (decodeLine l2 (i + j)).isOk = true
  | [], i, h => by cases h
  | l :: rest, i, h => by
    cases hd : decodeLine l i with
    | error e2 =>
      have he : e2 = e := by
        simp only [SeatbeltFile.decodeLinesFrom, hd] at h
        exact Except.error.inj h
      subst he
      exact ⟨0, l, rfl, by simpa using hd,
        fun j l2 hj _ => absurd hj (Nat.not_lt_zero j)⟩
    | ok x =>
      cases hrest : SeatbeltFile.decodeLinesFrom rest (i + 1) with
      | error e2 =>
        have he : e2 = e := by
          simp only [SeatbeltFile.decodeLinesFrom, hd, hrest] at h
          exact Except.error.inj h
        subst he
        obtain ⟨k, l2, hget, hdec, hprev⟩ := decodeLinesFrom_error e2 rest (i + 1) hrest
        refine ⟨k + 1, l2, hget, by
          have harith : i + (k + 1) = i + 1 + k := by omega
          rw [harith]
          exact hdec, ?_⟩
        intro j l3 hj hget3
        cases j with
        | zero =>
          have hl3 : l3 = l := by
            have h0 := hget3
            simp only [List.get?] at h0
            exact (Option.some.inj h0).symm
          subst hl3
          rw [Nat.add_zero, hd]
          rfl
        | succ j2 =>
          have harith : i + (j2 + 1) = i + 1 + j2 := by omega
          rw [harith]
          exact hprev j2 l3 (by omega) hget3
      | ok xs =>
        rw [SeatbeltFile.decodeLinesFrom, hd, hrest] at h
        cases h

theorem decodeLinesFrom_error_of_bad :
    ∀ (ls : List (List Char)) (i : Nat),
      (∃ l ∈ ls, (splitOnTab l).length ≠ 3) →
      ∃ e, SeatbeltFile.decodeLinesFrom ls i = Except.error e
  | [], _, h => by
    rcases h with ⟨l, hmem, _⟩
    cases hmem
  | l :: rest, i, h => by
    rcases h with ⟨l2, hmem, hbad⟩
    rcases List.mem_cons.mp hmem with rfl | hmem2
    · obtain ⟨e, he⟩ := decodeLine_error_of_fieldCount l2 i hbad
      exact ⟨e, by simp [SeatbeltFile.decodeLinesFrom, he]⟩
    · cases hd : decodeLine l i with
      | error e => exact ⟨e, by simp [SeatbeltFile.decodeLinesFrom, hd]⟩
      | ok x =>
        obtain ⟨e, he⟩ := decodeLinesFrom_error_of_bad rest (i + 1) ⟨l2, hmem2, hbad⟩
        exact ⟨e, by simp [SeatbeltFile.decodeLinesFrom, hd, he]⟩

theorem parse_error_iff (filename text : String) (e : LineError) :
    SeatbeltFile.parse filename text = Except.error e ↔
      SeatbeltFile.decodeLinesFrom (SeatbeltFile.keptLines text) 0 = Except.error e := by
  simp only [SeatbeltFile.parse, SeatbeltFile.keptLines]
  cases h : SeatbeltFile.decodeLinesFrom
      ((splitAfterNL text.data).filter
        (fun l => !l.isEmpty && decide (l ≠ ['\n']) && !isCommentLine l)) 0 with
  | error e2 => simp [h]
  | ok lines => simp [h]

/-- Claim C7 (amended).  Parse fails for the entire read (no partial store)
whenever some kept (non-comment, non-blank) line does not split on tab into
exactly 3 fields; and every parse error carries the trimmed content of the
first failing kept line and its 1-based index among the kept lines, which is
the input-text line number only when no comment or blank lines precede. -/
theorem parse_fails_and_reports_first_failing_kept_line (filename text : String) :
    ((∃ l ∈ SeatbeltFile.keptLines text, (splitOnTab l).length ≠ 3) →
      ∃ e, SeatbeltFile.parse filename text = Except.error e) ∧
    (∀ e, SeatbeltFile.parse filename text = Except.error e →
      ∃ i l, (SeatbeltFile.keptLines text).get? i = some l ∧
        decodeLine l i = Except.error e ∧
        e.lineNumber = i + 1 ∧ e.content = String.mk (trimChars l) ∧
        ∀ j l2, j < i → (SeatbeltFile.keptLines text).get? j = some l2 →
          (decodeLine l2 j).isOk = true) := by
  constructor
  · intro h
    obtain ⟨e, he⟩ := decodeLinesFrom_error_of_bad (SeatbeltFile.keptLines text) 0 h
    exact ⟨e, (parse_error_iff filename text e).mpr he⟩
  · intro e he
    obtain ⟨k, l, hget, hdec, hprev⟩ :=
      decodeLinesFrom_error e (SeatbeltFile.keptLines text) 0
        ((parse_error_iff filename text e).mp he)
    rw [Nat.zero_add] at hdec
    obtain ⟨hln, hcontent⟩ := decodeLine_error_fields l k e hdec
    refine ⟨k, l, hget, hdec, hln, hcontent, ?_⟩
    intro j l2 hj hget2
    have := hprev j l2 hj hget2
    rwa [Nat.zero_add] at this

/-- Witness for claim C7 (amended): a concrete text whose only kept line has
two tab-separated fields makes parse fail. -/
theorem parse_fails_and_reports_witness :
    ∃ e, SeatbeltFile.parse "f.tsv" "\"a\"\tx\n" = Except.error e :=
  (parse_fails_and_reports_first_failing_kept_line "f.tsv" "\"a\"\tx\n").1
    ⟨("\"a\"\tx\n").data, by decide, by decide⟩

/-! ## Decimal digit lemmas (claim C8) -/

theorem digitVal_digitChar {d : Nat} (h : d < 10) : digitVal (digitChar d) = d := by
  interval_cases d <;> rfl

theorem isDigitChar_digitChar {d : Nat} (h : d < 10) : isDigitChar (digitChar d) = true := by
  interval_cases d <;> rfl

theorem toNat_digitChar {d : Nat} (h : d < 10) :
    48 ≤ (digitChar d).toNat ∧ (digitChar d).toNat ≤ 57 := by
  interval_cases d <;> exact ⟨by decide, by decide⟩

theorem natDigitsAux_all_digits :
    ∀ (fuel n : Nat), ∀ c ∈ natDigitsAux fuel n, isDigitChar c = true
  | 0, _, c, h => by cases h
  | fuel + 1, n, c, h => by
    simp only [natDigitsAux] at h
    split_ifs at h with h0
    · cases h
    · rcases List.mem_append.mp h with h2 | h2
      · exact natDigitsAux_all_digits fuel (n / 10) c h2
      · rcases List.mem_singleton.mp h2 with rfl
        exact isDigitChar_digitChar (Nat.mod_lt n (by omega))

theorem natToChars_all_digits (n : Nat) : ∀ c ∈ natToChars n, isDigitChar c = true := by
  intro c h
  simp only [natToChars] at h
  split_ifs at h with h0
  · rcases List.mem_singleton.mp h with rfl
    rfl
  · exact natDigitsAux_all_digits (n + 1) n c h

theorem natDigitsAux_ne_nil {fuel n : Nat} (hn : n ≠ 0) (hf : fuel ≠ 0) :
    natDigitsAux fuel n ≠ [] := by
  cases fuel with
  | zero => exact absurd rfl hf
  | succ fuel2 =>
    simp only [natDigitsAux, if_neg hn]
    intro h
    exact absurd (List.append_eq_nil.mp h).2 (by simp)

theorem natToChars_ne_nil (n : Nat) : natToChars n ≠ [] := by
  simp only [natToChars]
  split_ifs with h0
  · simp
  · exact natDigitsAux_ne_nil h0 (by omega)

theorem parseDigits_append (xs : List Char) (c : Char) :
    parseDigits (xs ++ [c]) = 10 * parseDigits xs + digitVal c := by
  simp [parseDigits, List.foldl_append]

theorem parseDigits_natDigitsAux :
    ∀ (fuel n : Nat), n ≤ fuel → parseDigits (natDigitsAux fuel n) = n
  | 0, n, h => by
    have : n = 0 := by omega
    subst this
    rfl
  | fuel + 1, n, h => by
    simp only [natDigitsAux]
    split_ifs with h0
    · subst h0
      rfl
    · rw [parseDigits_append, parseDigits_natDigitsAux fuel (n / 10) (by omega),
        digitVal_digitChar (Nat.mod_lt n (by omega))]
      omega

theorem parseDigits_natToChars (n : Nat) : parseDigits (natToChars n) = n := by
  simp only [natToChars]
  split_ifs with h0
  · subst h0
    rfl
  · exact parseDigits_natDigitsAux (n + 1) n (by omega)

theorem isJsWs_eq_false_of_ge {c : Char} (h : 33 ≤ c.toNat) : isJsWs c = false := by
  by_contra hne
  have hw : isJsWs c = true := by
    cases hb : isJsWs c
    · exact absurd hb hne
    · rfl
  simp only [isJsWs, Bool.or_eq_true, decide_eq_true_eq] at hw
  rcases hw with ((((hw | hw) | hw) | hw) | hw) | hw <;>
    (subst hw; exact absurd h (by decide))

theorem toNat_le_of_isJsWs {c : Char} (h : isJsWs c = true) : c.toNat ≤ 32 := by
  simp only [isJsWs, Bool.or_eq_true, decide_eq_true_eq] at h
  rcases h with ((((h | h) | h) | h) | h) | h <;> (subst h; decide)

theorem isDigitChar_toNat {c : Char} (h : isDigitChar c = true) :
    48 ≤ c.toNat ∧ c.toNat ≤ 57 := by
  simp only [isDigitChar, Bool.and_eq_true, decide_eq_true_eq] at h
  exact h

theorem takeWhile_dropWhile_append {p : α → Bool} :
    ∀ (xs rest : List α), (∀ c ∈ xs, p c = true) → (∀ c ∈ rest, p c = false) →
      (xs ++ rest).takeWhile p = xs ∧ (xs ++ rest).dropWhile p = rest
  | [], rest, _, hrest => by
    cases rest with
    | nil => exact ⟨rfl, rfl⟩
    | cons y ys =>
      have hy : p y = false := hrest y (by simp)
      simp [List.takeWhile_cons, List.dropWhile_cons, hy]
  | x :: xs2, rest, hxs, hrest => by
    have hx : p x = true := hxs x (by simp)
    have ih := takeWhile_dropWhile_append xs2 rest (fun c hc => hxs c (by simp [hc])) hrest
    simp [List.takeWhile_cons, List.dropWhile_cons, hx, ih.1, ih.2]

/-- Integer print-parse roundtrip: the decimal text the encoder writes for an
integer, followed by any whitespace, parses back to the same integer. -/
theorem parseIntChars_intToChars (n : Int) (rest : List Char)
    (hrest : ∀ c ∈ rest, isJsWs c = true) :
    parseIntChars (intToChars n ++ rest) = some n := by
  have hrestNotDigit : ∀ c ∈ rest, isDigitChar c = false := fun c hc => by
    have h1 := toNat_le_of_isJsWs (hrest c hc)
    cases hb : isDigitChar c
    · rfl
    · have h2 := (isDigitChar_toNat hb).1
      omega
  obtain ⟨d, ds, hds⟩ := List.exists_cons_of_ne_nil (natToChars_ne_nil n.natAbs)
  have hdDigit : isDigitChar d = true := natToChars_all_digits n.natAbs d (by rw [hds]; simp)
  have hdNotWs : isJsWs d = false := by
    refine isJsWs_eq_false_of_ge ?_
    have := (isDigitChar_toNat hdDigit).1
    omega
  have hdNotMinus : ¬(d = '-') := by
    intro he
    have h1 := (isDigitChar_toNat hdDigit).1
    rw [he] at h1
    exact absurd h1 (by decide)
  have htd := takeWhile_dropWhile_append (p := isDigitChar) (natToChars n.natAbs) rest
    (natToChars_all_digits n.natAbs) hrestNotDigit
  have hne2 : (natToChars n.natAbs).isEmpty = false := by rw [hds]; rfl
  have hallws : (rest.all isJsWs) = true := List.all_eq_true.mpr hrest
  by_cases hneg : n < 0
  · have hdw : List.dropWhile isJsWs ('-' :: (natToChars n.natAbs ++ rest))
        = '-' :: (natToChars n.natAbs ++ rest) := by
      rw [List.dropWhile_cons]
      simp [show isJsWs '-' = false from by decide]
    simp only [intToChars, if_pos hneg, List.cons_append, parseIntChars, hdw]
    simp only [if_pos rfl, htd.1, htd.2, hne2, hallws, Bool.false_eq_true, if_false, if_true,
      parseDigits_natToChars]
    congr 1
    simp only [Int.ofNat_eq_natCast]
    omega
  · have hdw : List.dropWhile isJsWs (natToChars n.natAbs ++ rest)
        = natToChars n.natAbs ++ rest := by
      rw [hds, List.cons_append, List.dropWhile_cons]
      simp [hdNotWs]
    simp only [intToChars, if_neg hneg, parseIntChars, hdw]
    rw [hds, List.cons_append]
    simp only [if_neg hdNotMinus]
    rw [← List.cons_append, ← hds]
    simp only [htd.1, htd.2, hne2, hallws, Bool.false_eq_true, if_false, if_true,
      parseDigits_natToChars]
    congr 1
    simp only [Int.ofNat_eq_natCast]
    omega

/-! ## JSON string escape roundtrip (claim C8) -/

theorem hexVal_hexDigitChar {d : Nat} (h : d < 16) : hexVal (hexDigitChar d) = some d := by
  interval_cases d <;> rfl

theorem toNat_hexDigitChar_ge {d : Nat} (h : d < 16) : 48 ≤ (hexDigitChar d).toNat := by
  interval_cases d <;> decide

theorem escapeChar_toNat_ge (c : Char) : ∀ x ∈ escapeChar c, 32 ≤ x.toNat := by
  intro x hx
  unfold escapeChar at hx
  split_ifs at hx with h1 h2 h3 h4 h5 h6 h7 h8
  all_goals simp only [List.mem_cons, List.not_mem_nil, or_false] at hx
  · rcases hx with rfl | rfl <;> decide
  · rcases hx with rfl | rfl <;> decide
  · rcases hx with rfl | rfl <;> decide
  · rcases hx with rfl | rfl <;> decide
  · rcases hx with rfl | rfl <;> decide
  · rcases hx with rfl | rfl <;> decide
  · rcases hx with rfl | rfl <;> decide
  · rcases hx with rfl | rfl | rfl | rfl | rfl | rfl
    · decide
    · decide
    · decide
    · decide
    · have h9 := toNat_hexDigitChar_ge (show c.toNat / 16 < 16 by omega)
      omega
    · have h9 := toNat_hexDigitChar_ge (show c.toNat % 16 < 16 from Nat.mod_lt _ (by omega))
      omega
  · subst hx
    omega

theorem parseStringBody_unicode (a b : Char) (rest : List Char) (da db : Nat)
    (ha : hexVal a = some da) (hb : hexVal b = some db) :
    parseStringBody ('\\' :: 'u' :: '0' :: '0' :: a :: b :: rest)
      = (if Nat.isValidChar (da * 16 + db) then
          (parseStringBody rest).map (fun p => (Char.ofNat (da * 16 + db) :: p.1, p.2))
        else none) := by
  rw [parseStringBody.eq_def]
  simp [ha, hb, show hexVal '0' = some 0 from rfl]

theorem parseStringBody_flatMap_escape :
    ∀ (cs tail : List Char),
      parseStringBody (cs.flatMap escapeChar ++ '"' :: tail) = some (cs, tail)
  | [], tail => by
    rw [List.flatMap_nil, List.nil_append, parseStringBody.eq_def]
    simp
  | c :: cs2, tail => by
    have ih := parseStringBody_flatMap_escape cs2 tail
    rw [List.flatMap_cons, List.append_assoc]
    by_cases h1 : c = '"'
    · subst h1
      rw [show escapeChar '"' = ['\\', '"'] from rfl, List.cons_append, List.cons_append,
        List.nil_append, parseStringBody.eq_def]
      simp [ih]
    · by_cases h2 : c = '\\'
      · subst h2
        rw [show escapeChar '\\' = ['\\', '\\'] from rfl, List.cons_append, List.cons_append,
          List.nil_append, parseStringBody.eq_def]
        simp [ih]
      · by_cases h3 : c = '\x08'
        · subst h3
          rw [show escapeChar '\x08' = ['\\', 'b'] from rfl, List.cons_append, List.cons_append,
            List.nil_append, parseStringBody.eq_def]
          simp [ih]
        · by_cases h4 : c = '\t'
          · subst h4
            rw [show escapeChar '\t' = ['\\', 't'] from rfl, List.cons_append, List.cons_append,
              List.nil_append, parseStringBody.eq_def]
            simp [ih]
          · by_cases h5 : c = '\n'
            · subst h5
              rw [show escapeChar '\n' = ['\\', 'n'] from rfl, List.cons_append,
                List.cons_append, List.nil_append, parseStringBody.eq_def]
              simp [ih]
            · by_cases h6 : c = '\x0c'
              · subst h6
                rw [show escapeChar '\x0c' = ['\\', 'f'] from rfl, List.cons_append,
                  List.cons_append, List.nil_append, parseStringBody.eq_def]
                simp [ih]
              · by_cases h7 : c = '\r'
                · subst h7
                  rw [show escapeChar '\r' = ['\\', 'r'] from rfl, List.cons_append,
                    List.cons_append, List.nil_append, parseStringBody.eq_def]
                  simp [ih]
                · by_cases h8 : c.toNat < 32
                  · have hesc : escapeChar c = ['\\', 'u', '0', '0',
                        hexDigitChar (c.toNat / 16), hexDigitChar (c.toNat % 16)] := by
                      unfold escapeChar
                      rw [if_neg h1, if_neg h2, if_neg h3, if_neg h4, if_neg h5, if_neg h6,
                        if_neg h7, if_pos h8]
                    rw [hesc]
                    simp only [List.cons_append, List.nil_append]
                    rw [parseStringBody_unicode _ _ _ _ _
                      (hexVal_hexDigitChar (show c.toNat / 16 < 16 by omega))
                      (hexVal_hexDigitChar (show c.toNat % 16 < 16 from Nat.mod_lt _ (by omega)))]
                    have hv : c.toNat / 16 * 16 + c.toNat % 16 = c.toNat := by omega
                    rw [hv, if_pos (show Nat.isValidChar c.toNat from by
                        unfold Nat.isValidChar
                        omega),
                      ih, Char.ofNat_toNat]
                    rfl
                  · have hesc : escapeChar c = [c] := by
                      unfold escapeChar
                      rw [if_neg h1, if_neg h2, if_neg h3, if_neg h4, if_neg h5, if_neg h6,
                        if_neg h7, if_neg h8]
                    rw [hesc]
                    simp only [List.cons_append, List.nil_append]
                    rw [parseStringBody.eq_def]
                    simp [h1, h2, h8, ih]

theorem parseJsonStringChars_quote (cs : List Char) :
    parseJsonStringChars (jsonQuoteChars cs) = some cs := by
  have hdrop : (jsonQuoteChars cs).dropWhile isJsWs
      = '"' :: (cs.flatMap escapeChar ++ ['"']) := by
    rw [jsonQuoteChars, List.cons_append, List.dropWhile_cons]
    simp [show isJsWs '"' = false from rfl]
  rw [parseJsonStringChars.eq_def, hdrop]
  simp [parseStringBody_flatMap_escape cs []]

/-! ## Encoded line structure (claim C8) -/

theorem jsonQuoteChars_toNat_ge (cs : List Char) :
    ∀ x ∈ jsonQuoteChars cs, 32 ≤ x.toNat := by
  intro x hx
  simp only [jsonQuoteChars, List.cons_append] at hx
  rcases List.mem_cons.mp hx with rfl | hx2
  · decide
  · rcases List.mem_append.mp hx2 with hx3 | hx3
    · rcases List.mem_flatMap.mp hx3 with ⟨c, _, hc⟩
      exact escapeChar_toNat_ge c x hc
    · rcases List.mem_singleton.mp hx3 with rfl
      decide

theorem intToChars_toNat_ge (n : Int) : ∀ x ∈ intToChars n, 45 ≤ x.toNat := by
  intro x hx
  simp only [intToChars] at hx
  have hdig : ∀ y ∈ natToChars n.natAbs, 45 ≤ y.toNat := fun y hy => by
    have := (isDigitChar_toNat (natToChars_all_digits _ y hy)).1
    omega
  split_ifs at hx
  · rcases List.mem_cons.mp hx with rfl | hx2
    · decide
    · exact hdig x hx2
  · exact hdig x hx

/-- The character sequence of one encoded record line. -/
def encodeLineChars (f r : String) (n : Int) : List Char :=
  jsonQuoteChars f.data ++ '\t' :: (jsonQuoteChars r.data ++ '\t' :: (intToChars n ++ ['\n']))

theorem encodeLine_data (e : Option String) (f r : String) (n : Int) :
    (encodeLine (SeatbeltFileLine.mk e f r n)).data = encodeLineChars f r n := by
  simp [encodeLine, encodeLineChars, jsonStringifyStr, intToString, String.data_append,
    show ("\t" : String).data = ['\t'] from rfl, show ("\n" : String).data = ['\n'] from rfl]

theorem splitOnTab_tabfree :
    ∀ (xs : List Char), (∀ c ∈ xs, ¬(c = '\t')) → splitOnTab xs = [xs]
  | [], _ => rfl
  | x :: xs2, h => by
    have hx : ¬(x = '\t') := h x (by simp)
    simp only [splitOnTab, if_neg hx, splitOnTab_tabfree xs2 (fun c hc => h c (by simp [hc]))]

theorem splitOnTab_append_tabfree :
    ∀ (xs ys : List Char), (∀ c ∈ xs, ¬(c = '\t')) →
      splitOnTab (xs ++ '\t' :: ys) = xs :: splitOnTab ys
  | [], ys, _ => by simp [splitOnTab]
  | x :: xs2, ys, h => by
    have hx : ¬(x = '\t') := h x (by simp)
    rw [List.cons_append]
    simp only [splitOnTab, if_neg hx,
      splitOnTab_append_tabfree xs2 ys (fun c hc => h c (by simp [hc]))]

theorem splitOnTab_encodeLineChars (f r : String) (n : Int) :
    splitOnTab (encodeLineChars f r n)
      = [jsonQuoteChars f.data, jsonQuoteChars r.data, intToChars n ++ ['\n']] := by
  have hq : ∀ (cs : List Char), ∀ c ∈ jsonQuoteChars cs, ¬(c = '\t') := by
    intro cs c hc he
    have := jsonQuoteChars_toNat_ge cs c hc
    rw [he] at this
    exact absurd this (by decide)
  have hi : ∀ c ∈ intToChars n ++ ['\n'], ¬(c = '\t') := by
    intro c hc he
    rcases List.mem_append.mp hc with hc2 | hc2
    · have := intToChars_toNat_ge n c hc2
      rw [he] at this
      exact absurd this (by decide)
    · rcases List.mem_singleton.mp hc2 with rfl
      cases he
  rw [encodeLineChars, splitOnTab_append_tabfree _ _ (hq f.data),
    splitOnTab_append_tabfree _ _ (hq r.data), splitOnTab_tabfree _ hi]

theorem strMk_data (s : String) : String.mk s.data = s := rfl

theorem decodeLine_encodeLineChars (f r : String) (n : Int) (i : Nat) :
    decodeLine (encodeLineChars f r n) i
      = Except.ok (SeatbeltFileLine.mk (some (String.mk (encodeLineChars f r n))) f r n) := by
  have hint : parseIntChars (intToChars n ++ ['\n']) = some n :=
    parseIntChars_intToChars n ['\n'] (by intro c hc; rcases List.mem_singleton.mp hc with rfl; rfl)
  unfold decodeLine
  rw [splitOnTab_encodeLineChars]
  simp only [parseJsonStringChars_quote, hint, strMk_data]

/-! ## Line splitting of serialized output (claim C8) -/

theorem splitAfterNL_cons (c : Char) (rest : List Char) :
    splitAfterNL (c :: rest)
      = (match splitAfterNL rest with
         | [] => [[c]]
         | g :: gs => if c = '\n' then [c] :: g :: gs else (c :: g) :: gs) := by
  rw [splitAfterNL]

theorem splitAfterNL_ne_nil : ∀ (cs : List Char), cs ≠ [] → splitAfterNL cs ≠ []
  | [], h => absurd rfl h
  | c :: rest, _ => by
    rw [splitAfterNL_cons]
    cases hs : splitAfterNL rest with
    | nil => simp
    | cons g gs =>
      split_ifs <;> simp

theorem splitAfterNL_single_line :
    ∀ (body rest : List Char), (∀ c ∈ body, ¬(c = '\n')) →
      splitAfterNL (body ++ '\n' :: rest) = (body ++ ['\n']) :: splitAfterNL rest
  | [], rest, _ => by
    rw [List.nil_append, splitAfterNL_cons]
    cases hs : splitAfterNL rest with
    | nil =>
      cases rest with
      | nil => rfl
      | cons r rs => exact absurd hs (splitAfterNL_ne_nil _ (by simp))
    | cons g gs => simp
  | b :: body2, rest, h => by
    have hb : ¬(b = '\n') := h b (by simp)
    rw [List.cons_append, splitAfterNL_cons,
      splitAfterNL_single_line body2 rest (fun c hc => h c (by simp [hc]))]
    simp [hb]

theorem splitAfterNL_append :
    ∀ (a b : List Char), a.getLast? = some '\n' →
      splitAfterNL (a ++ b) = splitAfterNL a ++ splitAfterNL b
  | [], _, h => by cases h
  | [c], b, h => by
    have hc : c = '\n' := by simpa using h
    subst hc
    rw [List.singleton_append, splitAfterNL_cons,
      show splitAfterNL ['\n'] = [['\n']] from rfl]
    cases hs : splitAfterNL b with
    | nil =>
      cases b with
      | nil => rfl
      | cons x xs => exact absurd hs (splitAfterNL_ne_nil _ (by simp))
    | cons g gs => simp
  | c :: d :: rest, b, h => by
    have hlast : (d :: rest).getLast? = some '\n' := by
      rw [← h]
      exact List.getLast?_cons_cons.symm
    have ih := splitAfterNL_append (d :: rest) b hlast
    cases hs : splitAfterNL (d :: rest) with
    | nil => exact absurd hs (splitAfterNL_ne_nil _ (by simp))
    | cons g gs =>
      rw [List.cons_append, splitAfterNL_cons, ih, hs, splitAfterNL_cons c (d :: rest), hs,
        List.cons_append]
      split_ifs <;> simp

theorem splitAfterNL_flatten :
    ∀ (ls : List (List Char)),
      (∀ l ∈ ls, ∃ body, l = body ++ ['\n'] ∧ ∀ c ∈ body, ¬(c = '\n')) →
      splitAfterNL ls.flatten = ls
  | [], _ => rfl
  | l :: rest, h => by
    obtain ⟨body, hbody, hfree⟩ := h l (by simp)
    rw [List.flatten_cons, hbody, List.append_assoc, List.singleton_append,
      splitAfterNL_single_line body _ hfree,
      splitAfterNL_flatten rest (fun l2 hl2 => h l2 (by simp [hl2]))]

/-! ## Association list and decoding lemmas (claim C8) -/

theorem mapGet_append_left [DecidableEq α] (l1 l2 : List (α × β)) (k : α) (v : β)
    (h : mapGet l1 k = some v) : mapGet (l1 ++ l2) k = some v := by
  induction l1 with
  | nil => cases h
  | cons e rest ih =>
    obtain ⟨k2, v2⟩ := e
    by_cases h2 : k2 = k
    · simp only [mapGet, if_pos h2] at h
      simp only [List.cons_append, mapGet, if_pos h2]
      exact h
    · simp only [mapGet, if_neg h2] at h
      simp only [List.cons_append, mapGet, if_neg h2]
      exact ih h

theorem mapGet_of_mem_nodup [DecidableEq α] {m : List (α × β)} {k : α} {v : β}
    (hnd : (m.map Prod.fst).Nodup) (hm : (k, v) ∈ m) : mapGet m k = some v := by
  induction m with
  | nil => cases hm
  | cons e rest ih =>
    obtain ⟨k2, v2⟩ := e
    simp only [List.map_cons, List.nodup_cons] at hnd
    rcases List.mem_cons.mp hm with he | hm2
    · cases he
      simp [mapGet]
    · have hne : ¬(k2 = k) := by
        intro he
        subst he
        exact hnd.1 (by
          simp only [List.mem_map]
          exact ⟨(k2, v), hm2, rfl⟩)
      simp only [mapGet, if_neg hne]
      exact ih hnd.2 hm2

/-- Total decoder used to name the result of a successful decodeLine. -/
def decLine (x : List Char) : SeatbeltFileLine :=
  match decodeLine x 0 with
  | Except.ok l => l
  | Except.error _ => SeatbeltFileLine.mk none "" "" 0

theorem decLine_encodeLineChars (f r : String) (n : Int) :
    decLine (encodeLineChars f r n)
      = SeatbeltFileLine.mk (some (String.mk (encodeLineChars f r n))) f r n := by
  rw [decLine, decodeLine_encodeLineChars]

theorem decodeLinesFrom_encoded :
    ∀ (xs : List (List Char)) (i : Nat),
      (∀ x ∈ xs, ∃ f r n, x = encodeLineChars f r n) →
      SeatbeltFile.decodeLinesFrom xs i = Except.ok (xs.map decLine)
  | [], _, _ => rfl
  | x :: rest, i, h => by
    obtain ⟨f, r, n, hx⟩ := h x (by simp)
    have hdec : decodeLine x i = Except.ok (SeatbeltFileLine.mk (some (String.mk x)) f r n) := by
      rw [hx]
      exact decodeLine_encodeLineChars f r n i
    have hdl : decLine x = SeatbeltFileLine.mk (some (String.mk x)) f r n := by
      rw [hx, decLine_encodeLineChars]
    simp only [SeatbeltFile.decodeLinesFrom, hdec,
      decodeLinesFrom_encoded rest (i + 1) (fun y hy => h y (by simp [hy])),
      List.map_cons, hdl]

theorem foldl_mapSet_get (r : RuleId) :
    ∀ (ls : List SeatbeltFileLine) (acc : List (RuleId × Int)),
      mapGet (ls.foldl (fun m l => mapSet m l.ruleId l.maxErrors) acc) r
        = (((ls.filter (fun x => decide (x.ruleId = r))).getLast?).map
            (fun x => x.maxErrors)).or (mapGet acc r)
  | [], acc => by simp
  | l :: rest, acc => by
    rw [List.foldl_cons, foldl_mapSet_get r rest]
    by_cases hl : l.ruleId = r
    · rw [List.filter_cons, if_pos (by simp [hl]), ← List.singleton_append,
        List.getLast?_append, ← hl, mapGet_mapSet_self]
      cases hg : (rest.filter (fun x => decide (x.ruleId = l.ruleId))).getLast? with
      | none => simp [hg]
      | some l2 => simp [hg]
    · rw [List.filter_cons, if_neg (by simp [hl]),
        mapGet_mapSet_ne _ _ _ _ (fun he => hl he.symm)]

/-- Lookup into the lazily parsed per-file mapping: the last line for the
rule wins, exactly the JS Map.set fold of parseMaxErrors. -/
theorem parseMaxErrors_get (lines : List SeatbeltFileLine) (r : RuleId) :
    mapGet (parseMaxErrors lines) r
      = ((lines.filter (fun x => decide (x.ruleId = r))).getLast?).map
          (fun x => x.maxErrors) := by
  rw [parseMaxErrors, foldl_mapSet_get]
  simp [mapGet]

theorem foldl_insertLine_get (f : SourceFileName) :
    ∀ (ls : List SeatbeltFileLine) (acc : List (SourceFileName × SeatbeltStateFileData)),
      mapGet (ls.foldl SeatbeltFile.insertLine acc) f
        = match mapGet acc f with
          | some fs => some (SeatbeltStateFileData.mk fs.maxErrors
              (fs.lines ++ ls.filter (fun x => decide (x.filename = f))))
          | none =>
            if (ls.filter (fun x => decide (x.filename = f))).isEmpty then none
            else some (SeatbeltStateFileData.mk none
              (ls.filter (fun x => decide (x.filename = f))))
  | [], acc => by
    cases h : mapGet acc f with
    | none => simp [h]
    | some fs => simp [h]
  | l :: rest, acc => by
    rw [List.foldl_cons, foldl_insertLine_get f rest]
    by_cases hf : l.filename = f
    · have hd : decide (l.filename = f) = true := by simp [hf]
      rw [List.filter_cons, hd, if_pos rfl]
      cases hacc : mapGet acc l.filename with
      | some fs =>
        have h1 : SeatbeltFile.insertLine acc l
            = mapSet acc l.filename (SeatbeltStateFileData.mk fs.maxErrors (fs.lines ++ [l])) := by
          simp only [SeatbeltFile.insertLine, hacc]
        rw [← hf, h1, mapGet_mapSet_self, hacc]
        simp
      | none =>
        have h1 : SeatbeltFile.insertLine acc l
            = acc ++ [(l.filename, SeatbeltStateFileData.mk none [l])] := by
          simp only [SeatbeltFile.insertLine, hacc]
        have h2 : mapGet (SeatbeltFile.insertLine acc l) l.filename
            = some (SeatbeltStateFileData.mk none [l]) := by
          rw [h1, mapGet_append_right _ _ _ hacc]
          simp [mapGet]
        rw [← hf, h2, hacc]
        simp
    · have h0 : mapGet (SeatbeltFile.insertLine acc l) f = mapGet acc f := by
        cases hacc : mapGet acc l.filename with
        | some fs =>
          simp only [SeatbeltFile.insertLine, hacc]
          exact mapGet_mapSet_ne _ _ _ _ (fun he => hf he.symm)
        | none =>
          simp only [SeatbeltFile.insertLine, hacc]
          cases hg : mapGet acc f with
          | some v => exact mapGet_append_left _ _ _ _ hg
          | none =>
            rw [mapGet_append_right _ _ _ hg]
            simp [mapGet, hf]
      have hd : decide (l.filename = f) = false := by simp [hf]
      rw [List.filter_cons, hd, h0]
      simp only [Bool.false_eq_true, if_false]

/-- Lookup into the grouped store built by parse: the per-file state collects
exactly the decoded lines of that file, in order, with an empty cache. -/
theorem groupLines_get (ls : List SeatbeltFileLine) (f : SourceFileName) :
    mapGet (SeatbeltFile.groupLines ls) f
      = if (ls.filter (fun x => decide (x.filename = f))).isEmpty then none
        else some (SeatbeltStateFileData.mk none
          (ls.filter (fun x => decide (x.filename = f)))) := by
  rw [SeatbeltFile.groupLines, foldl_insertLine_get]
  simp [mapGet]

/-! ## Well-formed record sets and their serialized shape (claim C8) -/

/-- A record line is consistent: its byte cache, when present, holds its own
encoding, and it is filed under its own filename. -/
def lineOk (f : SourceFileName) (l : SeatbeltFileLine) : Bool :=
  (decide (l.encoded = none) || decide (l.encoded = some (encodeLine l)))
    && decide (l.filename = f)

/-- A per-file state is a valid record set: a cached mapping has no duplicate
rule keys; an uncached line list holds consistent lines with distinct rules. -/
def fileStateOk (f : SourceFileName) (fs : SeatbeltStateFileData) : Bool :=
  match fs.maxErrors with
  | some m => decide ((m.map Prod.fst).Nodup)
  | none =>
    fs.lines.all (lineOk f) && decide ((fs.lines.map (fun l => l.ruleId)).Nodup)

/-- The comment block consists only of lines the parser filters out: blank
lines and comment lines (after appending the newline the serializer adds). -/
def commentsOk (s : String) : Bool :=
  (splitAfterNL (s.data ++ ['\n'])).all
    (fun l => l.isEmpty || decide (l = ['\n']) || isCommentLine l)

/-- A valid in-memory record set: distinct file keys, valid per-file states,
and a well-formed comment block. -/
def validStore (st : SeatbeltFile) : Bool :=
  decide ((st.data.map Prod.fst).Nodup)
    && st.data.all (fun p => fileStateOk p.1 p.2)
    && commentsOk st.comments

/-- The (filename, ruleId, maxErrors) content of a record line. -/
def lineRec (l : SeatbeltFileLine) : SourceFileName × RuleId × Int :=
  (l.filename, l.ruleId, l.maxErrors)

/-- Canonical encoding of one record triple. -/
def recEncode (t : SourceFileName × RuleId × Int) : String :=
  encodeLine (SeatbeltFileLine.mk none t.1 t.2.1 t.2.2)

/-- The record triples one file state contributes to the serialized output,
in emission order. -/
def fileStateRecords (f : SourceFileName) (fs : SeatbeltStateFileData) :
    List (SourceFileName × RuleId × Int) :=
  match fs.maxErrors with
  | some m =>
    (sortByLe SeatbeltFile.ruleIdLe (m.map (fun e => SeatbeltFileLine.mk none f e.1 e.2))).map lineRec
  | none => fs.lines.map lineRec

/-- All record triples of the store, in emission order. -/
def storeRecords (st : SeatbeltFile) : List (SourceFileName × RuleId × Int) :=
  st.data.flatMap (fun p => fileStateRecords p.1 p.2)

/-- The characters of an encoded record line before its newline terminator. -/
def encodeBodyChars (f r : String) (n : Int) : List Char :=
  jsonQuoteChars f.data ++ '\t' :: (jsonQuoteChars r.data ++ '\t' :: intToChars n)

theorem encodeLineChars_eq_body (f r : String) (n : Int) :
    encodeLineChars f r n = encodeBodyChars f r n ++ ['\n'] := by
  simp [encodeLineChars, encodeBodyChars]

theorem encodeBodyChars_no_nl (f r : String) (n : Int) :
    ∀ c ∈ encodeBodyChars f r n, ¬(c = '\n') := by
  intro c hc he
  subst he
  simp only [encodeBodyChars, List.mem_append, List.mem_cons] at hc
  rcases hc with h | h | h
  · exact absurd (jsonQuoteChars_toNat_ge _ _ h) (by decide)
  · cases h
  · rcases h with h | h | h
    · exact absurd (jsonQuoteChars_toNat_ge _ _ h) (by decide)
    · cases h
    · exact absurd (intToChars_toNat_ge _ _ h) (by decide)

theorem isCommentLine_cons_false (c : Char) (t : List Char) (h1 : isJsWs c = false)
    (h2 : ¬(c = '#')) : isCommentLine (c :: t) = false := by
  rw [isCommentLine, List.dropWhile_cons, h1]
  simp only [Bool.false_eq_true, if_false]
  split
  · next heq =>
    rw [List.cons.injEq] at heq
    exact absurd heq.1 h2
  · rfl

theorem encodeLineChars_head (f r : String) (n : Int) :
    ∃ t, encodeLineChars f r n = '"' :: t :=
  ⟨_, rfl⟩

/-- An encoded record line survives the parser's keep filter: it is nonempty,
not a blank line, and not a comment line. -/
theorem keep_encodeLineChars (f r : String) (n : Int) :
    (!(encodeLineChars f r n).isEmpty
      && decide (encodeLineChars f r n ≠ ['\n'])
      && !isCommentLine (encodeLineChars f r n)) = true := by
  obtain ⟨t, ht⟩ := encodeLineChars_head f r n
  rw [ht, isCommentLine_cons_false '"' t (by decide) (by decide)]
  simp

theorem splitAfterNL_nl_cons (b : List Char) :
    splitAfterNL ('\n' :: b) = ['\n'] :: splitAfterNL b := by
  rw [splitAfterNL_cons]
  cases hs : splitAfterNL b with
  | nil =>
    cases b with
    | nil => rfl
    | cons x xs => exact absurd hs (splitAfterNL_ne_nil _ (by simp))
  | cons g gs => simp

theorem recEncode_lineRec (l : SeatbeltFileLine) : recEncode (lineRec l) = encodeLine l := by
  cases l with
  | mk e f r n => rfl

theorem recEncode_data (t : SourceFileName × RuleId × Int) :
    (recEncode t).data = encodeLineChars t.1 t.2.1 t.2.2 := by
  rw [recEncode]
  exact encodeLine_data none t.1 t.2.1 t.2.2

theorem fileStateLines_eq (f : SourceFileName) (fs : SeatbeltStateFileData)
    (hOk : fileStateOk f fs = true) :
    SeatbeltFile.fileStateLines f fs = (fileStateRecords f fs).map recEncode := by
  cases hm : fs.maxErrors with
  | some m =>
    simp only [SeatbeltFile.fileStateLines, fileStateRecords, hm, List.map_map]
    apply List.map_congr_left
    intro l hl
    have hl2 : l ∈ m.map (fun e => SeatbeltFileLine.mk none f e.1 e.2) :=
      (sortByLe_perm SeatbeltFile.ruleIdLe _).mem_iff.mp hl
    obtain ⟨e, he, rfl⟩ := List.mem_map.mp hl2
    rfl
  | none =>
    simp only [fileStateOk, hm, Bool.and_eq_true, List.all_eq_true] at hOk
    simp only [SeatbeltFile.fileStateLines, fileStateRecords, hm, List.map_map]
    apply List.map_congr_left
    intro l hl
    have hok := hOk.1 l hl
    simp only [lineOk, Bool.and_eq_true, Bool.or_eq_true, decide_eq_true_eq] at hok
    have hre := recEncode_lineRec l
    rcases hok.1 with he | he
    · simp [Function.comp, he, hre]
    · simp [Function.comp, he, hre]

theorem flatMap_fileStateLines_eq :
    ∀ (data : List (SourceFileName × SeatbeltStateFileData)),
      (∀ p ∈ data, fileStateOk p.1 p.2 = true) →
      data.flatMap (fun p => SeatbeltFile.fileStateLines p.1 p.2)
        = (data.flatMap (fun p => fileStateRecords p.1 p.2)).map recEncode
  | [], _ => rfl
  | p :: rest, h => by
    rw [List.flatMap_cons, List.flatMap_cons, List.map_append,
      fileStateLines_eq p.1 p.2 (h p (by simp)),
      flatMap_fileStateLines_eq rest (fun q hq => h q (by simp [hq]))]

theorem dataLines_eq (st : SeatbeltFile)
    (hall : ∀ p ∈ st.data, fileStateOk p.1 p.2 = true) :
    SeatbeltFile.dataLines st = (storeRecords st).map recEncode := by
  rw [SeatbeltFile.dataLines, storeRecords]
  exact flatMap_fileStateLines_eq st.data hall

/-- Under a well-formed comment block and encoded data lines, the kept lines
of the serialized output are exactly the sorted encoded record lines. -/
theorem keptLines_toDataString (st : SeatbeltFile)
    (hc : ∀ l ∈ splitAfterNL (st.comments.data ++ ['\n']),
        l.isEmpty = true ∨ l = ['\n'] ∨ isCommentLine l = true)
    (hd : ∀ s ∈ sortByLe strLe (SeatbeltFile.dataLines st),
        ∃ f r n, s.data = encodeLineChars f r n) :
    SeatbeltFile.keptLines (SeatbeltFile.toDataString st)
      = (sortByLe strLe (SeatbeltFile.dataLines st)).map String.data := by
  have htext : (SeatbeltFile.toDataString st).data
      = (st.comments.data ++ ['\n'])
        ++ ('\n' :: (joinStrings (sortByLe strLe (SeatbeltFile.dataLines st))).data) := by
    simp [SeatbeltFile.toDataString, String.data_append,
      show ("\n\n" : String).data = ['\n', '\n'] from rfl, List.append_assoc,
      List.cons_append]
  have hflat : splitAfterNL ((sortByLe strLe (SeatbeltFile.dataLines st)).map String.data).flatten
      = (sortByLe strLe (SeatbeltFile.dataLines st)).map String.data := by
    apply splitAfterNL_flatten
    intro l hl
    obtain ⟨s, hs, rfl⟩ := List.mem_map.mp hl
    obtain ⟨f, r, n, hsd⟩ := hd s hs
    exact ⟨encodeBodyChars f r n, by rw [hsd, encodeLineChars_eq_body],
      encodeBodyChars_no_nl f r n⟩
  have hsplit : splitAfterNL (SeatbeltFile.toDataString st).data
      = splitAfterNL (st.comments.data ++ ['\n'])
        ++ ['\n'] :: (sortByLe strLe (SeatbeltFile.dataLines st)).map String.data := by
    rw [htext, splitAfterNL_append _ _ (List.getLast?_concat _), splitAfterNL_nl_cons,
      show (joinStrings (sortByLe strLe (SeatbeltFile.dataLines st))).data
        = ((sortByLe strLe (SeatbeltFile.dataLines st)).map String.data).flatten from rfl,
      hflat]
  have hcf : (splitAfterNL (st.comments.data ++ ['\n'])).filter
      (fun l => !l.isEmpty && decide (l ≠ ['\n']) && !isCommentLine l) = [] := by
    rw [List.filter_eq_nil_iff]
    intro l hl
    rcases hc l hl with h | h | h <;> simp [h]
  rw [SeatbeltFile.keptLines, hsplit, List.filter_append, hcf, List.nil_append,
    List.filter_cons, if_neg (by decide)]
  exact List.filter_eq_self.mpr (fun x hx => by
    obtain ⟨s, hs, rfl⟩ := List.mem_map.mp hx
    obtain ⟨f, r, n, hsd⟩ := hd s hs
    rw [hsd]
    exact keep_encodeLineChars f r n)

/-! ## Source-side uniqueness of records and the round trip (claim C8) -/

theorem filter_by_key_of_nodup {α κ : Type} [DecidableEq κ] (key : α → κ) (r : κ) :
    ∀ (l : List α), ((l.map key).Nodup) →
      l.filter (fun a => decide (key a = r)) = []
        ∨ ∃ a, l.filter (fun a2 => decide (key a2 = r)) = [a] ∧ key a = r
  | [], _ => Or.inl rfl
  | x :: rest, h => by
    simp only [List.map_cons, List.nodup_cons] at h
    by_cases hx : key x = r
    · right
      refine ⟨x, ?_, hx⟩
      rw [List.filter_cons, if_pos (by simp [hx])]
      have hrest : rest.filter (fun a2 => decide (key a2 = r)) = [] := by
        rw [List.filter_eq_nil_iff]
        intro a ha
        simp only [decide_eq_true_eq]
        intro he
        apply h.1
        rw [hx, ← he]
        exact List.mem_map.mpr ⟨a, ha, rfl⟩
      rw [hrest]
    · rw [List.filter_cons, if_neg (by simp [hx])]
      exact filter_by_key_of_nodup key r rest h.2

theorem fileStateRecords_fst (f : SourceFileName) (fs : SeatbeltStateFileData)
    (hOk : fileStateOk f fs = true) :
    ∀ t ∈ fileStateRecords f fs, t.1 = f := by
  intro t ht
  cases hm : fs.maxErrors with
  | some m =>
    simp only [fileStateRecords, hm] at ht
    obtain ⟨l, hl, rfl⟩ := List.mem_map.mp ht
    have hl2 : l ∈ m.map (fun e => SeatbeltFileLine.mk none f e.1 e.2) :=
      (sortByLe_perm SeatbeltFile.ruleIdLe _).mem_iff.mp hl
    obtain ⟨e, he, rfl⟩ := List.mem_map.mp hl2
    rfl
  | none =>
    simp only [fileStateOk, hm, Bool.and_eq_true, List.all_eq_true] at hOk
    simp only [fileStateRecords, hm] at ht
    obtain ⟨l, hl, rfl⟩ := List.mem_map.mp ht
    have hok := hOk.1 l hl
    simp only [lineOk, Bool.and_eq_true, decide_eq_true_eq] at hok
    exact hok.2

/-- Filtering the records one valid file state emits down to one (file, rule)
pair leaves the unique defining record, valued by the state's own mapping. -/
theorem fileStateRecords_filter (f : SourceFileName) (r : RuleId) (fs : SeatbeltStateFileData)
    (hOk : fileStateOk f fs = true) :
    (fileStateRecords f fs).filter (fun t => decide (t.1 = f) && decide (t.2.1 = r))
      = (mapGet (SeatbeltFile.fileMapping fs) r).elim [] (fun n => [(f, r, n)]) := by
  have hfst := fileStateRecords_fst f fs hOk
  have hfe : (fileStateRecords f fs).filter (fun t => decide (t.1 = f) && decide (t.2.1 = r))
      = (fileStateRecords f fs).filter (fun t => decide (t.2.1 = r)) :=
    List.filter_congr (fun t ht => by simp [hfst t ht])
  rw [hfe]
  cases hm : fs.maxErrors with
  | some m =>
    have hnodup : (m.map Prod.fst).Nodup := by
      simp only [fileStateOk, hm, decide_eq_true_eq] at hOk
      exact hOk
    have hmap : SeatbeltFile.fileMapping fs = m := by
      simp only [SeatbeltFile.fileMapping, hm]
    have hB : ((sortByLe SeatbeltFile.ruleIdLe
          (m.map (fun e => SeatbeltFileLine.mk none f e.1 e.2))).map lineRec).Perm
        (m.map (fun e => ((f, e.1, e.2) : SourceFileName × RuleId × Int))) := by
      have h1 := (sortByLe_perm SeatbeltFile.ruleIdLe
        (m.map (fun e => SeatbeltFileLine.mk none f e.1 e.2))).map lineRec
      rw [List.map_map] at h1
      exact h1
    have hBf : (m.map (fun e => ((f, e.1, e.2) : SourceFileName × RuleId × Int))).filter
          (fun t => decide (t.2.1 = r))
        = (m.filter (fun e => decide (e.1 = r))).map
            (fun e => ((f, e.1, e.2) : SourceFileName × RuleId × Int)) := by
      rw [List.filter_map]
      rfl
    have hperm : ((fileStateRecords f fs).filter (fun t => decide (t.2.1 = r))).Perm
        ((m.filter (fun e => decide (e.1 = r))).map
          (fun e => ((f, e.1, e.2) : SourceFileName × RuleId × Int))) := by
      rw [show fileStateRecords f fs
          = (sortByLe SeatbeltFile.ruleIdLe
              (m.map (fun e => SeatbeltFileLine.mk none f e.1 e.2))).map lineRec from by
        simp only [fileStateRecords, hm], ← hBf]
      exact hB.filter _
    rw [hmap]
    rcases filter_by_key_of_nodup Prod.fst r m hnodup with hnil | ⟨a, ha, har⟩
    · have hget : mapGet m r = none := by
        apply mapGet_eq_none_of_not_mem
        intro hmem
        obtain ⟨e, he, hfst2⟩ := List.mem_map.mp hmem
        have := List.filter_eq_nil_iff.mp hnil e he
        simp only [decide_eq_true_eq] at this
        exact this hfst2
      rw [hget]
      rw [hnil] at hperm
      exact hperm.eq_nil
    · have ham : a ∈ m := (List.mem_filter.mp (ha ▸ List.mem_singleton_self a)).1
      have hget : mapGet m r = some a.2 := by
        apply mapGet_of_mem_nodup hnodup
        rw [← har]
        exact ham
      rw [hget]
      rw [ha] at hperm
      have := hperm.eq_singleton
      rw [this]
      simp [har]
  | none =>
    have hOk2 := hOk
    simp only [fileStateOk, hm, Bool.and_eq_true, List.all_eq_true, decide_eq_true_eq] at hOk2
    have hmap : SeatbeltFile.fileMapping fs = parseMaxErrors fs.lines := by
      simp only [SeatbeltFile.fileMapping, hm]
    have hrec : fileStateRecords f fs = fs.lines.map lineRec := by
      simp only [fileStateRecords, hm]
    rw [hmap, hrec, parseMaxErrors_get, List.filter_map,
      show ((fun t => decide ((t : SourceFileName × RuleId × Int).2.1 = r)) ∘ lineRec)
        = (fun x => decide (x.ruleId = r)) from rfl]
    rcases filter_by_key_of_nodup (fun l => l.ruleId) r fs.lines hOk2.2 with hnil | ⟨a, ha, har⟩
    · rw [show fs.lines.filter (fun x => decide (x.ruleId = r)) = [] from hnil]
      rfl
    · rw [show fs.lines.filter (fun x => decide (x.ruleId = r)) = [a] from ha]
      have ham : a ∈ fs.lines := (List.mem_filter.mp (ha ▸ List.mem_singleton_self a)).1
      have hfa : a.filename = f := by
        have := hOk2.1 a ham
        simp only [lineOk, Bool.and_eq_true, decide_eq_true_eq] at this
        exact this.2
      simp only [List.map_cons, List.map_nil, List.getLast?_singleton, Option.map_some',
        Option.elim]
      rw [show lineRec a = (a.filename, a.ruleId, a.maxErrors) from rfl, hfa, har]

theorem storeRecords_filter_ne (data : List (SourceFileName × SeatbeltStateFileData))
    (f : SourceFileName) (r : RuleId)
    (hall : ∀ p ∈ data, fileStateOk p.1 p.2 = true)
    (hnot : f ∉ data.map Prod.fst) :
    (data.flatMap (fun p => fileStateRecords p.1 p.2)).filter
      (fun t => decide (t.1 = f) && decide (t.2.1 = r)) = [] := by
  rw [List.filter_eq_nil_iff]
  intro t ht
  obtain ⟨p, hp, htp⟩ := List.mem_flatMap.mp ht
  have hfst := fileStateRecords_fst p.1 p.2 (hall p hp) t htp
  simp only [Bool.and_eq_true, decide_eq_true_eq]
  intro hcon
  apply hnot
  rw [← hcon.1, hfst]
  exact List.mem_map.mpr ⟨p, hp, rfl⟩

/-- Filtering all records a valid store emits down to one (file, rule) pair
leaves exactly the record the store's allowance lookup denotes. -/
theorem storeRecords_filter_char (f : SourceFileName) (r : RuleId) :
    ∀ (data : List (SourceFileName × SeatbeltStateFileData)),
      ((data.map Prod.fst).Nodup) →
      (∀ p ∈ data, fileStateOk p.1 p.2 = true) →
      (data.flatMap (fun p => fileStateRecords p.1 p.2)).filter
          (fun t => decide (t.1 = f) && decide (t.2.1 = r))
        = (((mapGet data f).map SeatbeltFile.fileMapping).bind
            (fun m => mapGet m r)).elim [] (fun n => [(f, r, n)])
  | [], _, _ => rfl
  | p :: rest, hnd, hall => by
    obtain ⟨f2, fs⟩ := p
    simp only [List.map_cons, List.nodup_cons] at hnd
    rw [List.flatMap_cons, List.filter_append]
    by_cases hf : f2 = f
    · subst hf
      rw [storeRecords_filter_ne rest f2 r (fun q hq => hall q (by simp [hq])) hnd.1,
        List.append_nil,
        show mapGet ((f2, fs) :: rest) f2 = some fs from by simp [mapGet],
        fileStateRecords_filter f2 r fs (hall (f2, fs) (by simp))]
      simp only [Option.map_some', Option.some_bind]
    · have hhead : (fileStateRecords f2 fs).filter
          (fun t => decide (t.1 = f) && decide (t.2.1 = r)) = [] := by
        rw [List.filter_eq_nil_iff]
        intro t ht
        have hfst := fileStateRecords_fst f2 fs (hall (f2, fs) (by simp)) t ht
        simp only [Bool.and_eq_true, decide_eq_true_eq]
        intro hcon
        exact hf (by rw [← hfst, hcon.1])
      rw [hhead, List.nil_append,
        storeRecords_filter_char f r rest hnd.2 (fun q hq => hall q (by simp [hq])),
        show mapGet ((f2, fs) :: rest) f = mapGet rest f from by simp [mapGet, hf]]

theorem parse_ok_of_decode (fn text : String) (lines : List SeatbeltFileLine)
    (h : SeatbeltFile.decodeLinesFrom (SeatbeltFile.keptLines text) 0 = Except.ok lines) :
    SeatbeltFile.parse fn text
      = Except.ok (SeatbeltFile.mk fn (SeatbeltFile.groupLines lines)
          (String.mk (trimChars ((splitAfterNL text.data).filter isCommentLine).flatten))
          false) := by
  unfold SeatbeltFile.keptLines at h
  simp only [SeatbeltFile.parse, h]

/-- Allowance lookup into the store parse builds: the last decoded line for
the (file, rule) pair wins, with the 0 default. -/
theorem allowance_groupLines (fn c : String) (b : Bool) (ls : List SeatbeltFileLine)
    (f : SourceFileName) (r : RuleId) :
    SeatbeltFile.allowance (SeatbeltFile.mk fn (SeatbeltFile.groupLines ls) c b) f r
      = (((ls.filter (fun x => decide (x.filename = f) && decide (x.ruleId = r))).getLast?).map
          (fun x => x.maxErrors)).getD 0 := by
  simp only [SeatbeltFile.allowance, SeatbeltFile.getMaxErrors]
  rw [groupLines_get]
  by_cases he : (ls.filter (fun x => decide (x.filename = f))).isEmpty = true
  · rw [if_pos he]
    have h2 : ls.filter (fun x => decide (x.filename = f) && decide (x.ruleId = r)) = [] := by
      rw [List.filter_eq_nil_iff]
      intro l hl
      simp only [Bool.and_eq_true, decide_eq_true_eq]
      intro hcon
      rw [List.isEmpty_iff] at he
      have := List.filter_eq_nil_iff.mp he l hl
      simp only [decide_eq_true_eq] at this
      exact this hcon.1
    rw [h2]
    rfl
  · rw [if_neg he]
    simp only [Option.map_some', Option.some_bind]
    rw [show SeatbeltFile.fileMapping (SeatbeltStateFileData.mk none
          (ls.filter (fun x => decide (x.filename = f))))
        = parseMaxErrors (ls.filter (fun x => decide (x.filename = f))) from rfl,
      parseMaxErrors_get, List.filter_filter,
      List.filter_congr (fun x _ => Bool.and_comm (decide (x.ruleId = r))
        (decide (x.filename = f)))]

/-- C8: for every valid in-memory record set, parsing the serialized store
succeeds and yields a store whose per-file allowance mappings (the effective
allowance of every (file, rule) pair, with the source's 0 default) equal the
original store's, ignoring comment-block formatting and the original-line
byte cache. -/
theorem parse_toDataString_roundtrip (st : SeatbeltFile) (h : validStore st = true) :
    ∃ st2, SeatbeltFile.parse st.filename (SeatbeltFile.toDataString st) = Except.ok st2
      ∧ ∀ f r, SeatbeltFile.allowance st2 f r = SeatbeltFile.allowance st f r := by
  simp only [validStore, Bool.and_eq_true, List.all_eq_true, decide_eq_true_eq] at h
  obtain ⟨⟨hnd, hall⟩, hcomm⟩ := h
  have hc : ∀ l ∈ splitAfterNL (st.comments.data ++ ['\n']),
      l.isEmpty = true ∨ l = ['\n'] ∨ isCommentLine l = true := by
    intro l hl
    have h1 := List.all_eq_true.mp hcomm l hl
    simp only [Bool.or_eq_true, decide_eq_true_eq] at h1
    rcases h1 with (h1 | h1) | h1
    · exact Or.inl h1
    · exact Or.inr (Or.inl h1)
    · exact Or.inr (Or.inr h1)
  have hdata : SeatbeltFile.dataLines st = (storeRecords st).map recEncode := dataLines_eq st hall
  have hd : ∀ s ∈ sortByLe strLe (SeatbeltFile.dataLines st),
      ∃ f r n, s.data = encodeLineChars f r n := by
    intro s hs
    have hs2 : s ∈ SeatbeltFile.dataLines st := (sortByLe_perm strLe _).mem_iff.mp hs
    rw [hdata] at hs2
    obtain ⟨t, ht, rfl⟩ := List.mem_map.mp hs2
    exact ⟨t.1, t.2.1, t.2.2, recEncode_data t⟩
  have hkept := keptLines_toDataString st hc hd
  have hdec : SeatbeltFile.decodeLinesFrom
      (SeatbeltFile.keptLines (SeatbeltFile.toDataString st)) 0
      = Except.ok ((SeatbeltFile.keptLines (SeatbeltFile.toDataString st)).map decLine) := by
    apply decodeLinesFrom_encoded
    intro x hx
    rw [hkept] at hx
    obtain ⟨s, hs, rfl⟩ := List.mem_map.mp hx
    exact hd s hs
  refine ⟨_, parse_ok_of_decode st.filename (SeatbeltFile.toDataString st) _ hdec, ?_⟩
  intro f r
  rw [allowance_groupLines]
  have hgre : ∀ t : SourceFileName × RuleId × Int,
      lineRec (decLine (recEncode t).data) = t := by
    intro t
    rw [recEncode_data, decLine_encodeLineChars]
    rfl
  have hperm : ((((SeatbeltFile.keptLines (SeatbeltFile.toDataString st)).map decLine).map
      lineRec)).Perm (storeRecords st) := by
    rw [hkept, List.map_map, List.map_map]
    have h1 := (sortByLe_perm strLe (SeatbeltFile.dataLines st)).map
      ((lineRec ∘ decLine) ∘ String.data)
    have h4 : (SeatbeltFile.dataLines st).map ((lineRec ∘ decLine) ∘ String.data)
        = storeRecords st := by
      rw [hdata, List.map_map]
      exact (List.map_congr_left (fun t _ => hgre t)).trans (List.map_id _)
    rw [h4] at h1
    exact h1
  have hstep : ((((((SeatbeltFile.keptLines (SeatbeltFile.toDataString st)).map decLine).map
          lineRec).filter (fun t => decide (t.1 = f) && decide (t.2.1 = r))).getLast?).map
        (fun t => t.2.2)).getD 0
      = (((((SeatbeltFile.keptLines (SeatbeltFile.toDataString st)).map decLine).filter
          (fun x => decide (x.filename = f) && decide (x.ruleId = r))).getLast?).map
          (fun x => x.maxErrors)).getD 0 := by
    rw [List.filter_map, List.getLast?_map, Option.map_map]
    rfl
  rw [← hstep]
  have hpf := hperm.filter (fun t => decide (t.1 = f) && decide (t.2.1 = r))
  have hS := storeRecords_filter_char f r st.data hnd hall
  cases hmg : ((mapGet st.data f).map SeatbeltFile.fileMapping).bind (fun m => mapGet m r) with
  | none =>
    have hSnil : (storeRecords st).filter
        (fun t => decide (t.1 = f) && decide (t.2.1 = r)) = [] := by
      rw [storeRecords, hS, hmg]
      rfl
    rw [hSnil] at hpf
    rw [hpf.eq_nil]
    rw [show SeatbeltFile.allowance st f r
        = (((mapGet st.data f).map SeatbeltFile.fileMapping).bind
            (fun m => mapGet m r)).getD 0 from rfl, hmg]
    rfl
  | some n =>
    have hSsing : (storeRecords st).filter
        (fun t => decide (t.1 = f) && decide (t.2.1 = r)) = [(f, r, n)] := by
      rw [storeRecords, hS, hmg]
      rfl
    rw [hSsing] at hpf
    rw [hpf.eq_singleton]
    rw [show SeatbeltFile.allowance st f r
        = (((mapGet st.data f).map SeatbeltFile.fileMapping).bind
            (fun m => mapGet m r)).getD 0 from rfl, hmg]
    rfl

theorem parse_toDataString_roundtrip_witness :
    validStore (SeatbeltFile.mk "f.tsv"
      [("a.ts", SeatbeltStateFileData.mk none [SeatbeltFileLine.mk none "a.ts" "r" 5])]
      "" false) = true
    ∧ ∃ st2,
      SeatbeltFile.parse (SeatbeltFile.mk "f.tsv"
          [("a.ts", SeatbeltStateFileData.mk none [SeatbeltFileLine.mk none "a.ts" "r" 5])]
          "" false).filename
        (SeatbeltFile.toDataString (SeatbeltFile.mk "f.tsv"
          [("a.ts", SeatbeltStateFileData.mk none [SeatbeltFileLine.mk none "a.ts" "r" 5])]
          "" false)) = Except.ok st2
      ∧ ∀ f r, SeatbeltFile.allowance st2 f r
          = SeatbeltFile.allowance (SeatbeltFile.mk "f.tsv"
              [("a.ts", SeatbeltStateFileData.mk none [SeatbeltFileLine.mk none "a.ts" "r" 5])]
              "" false) f r :=
  ⟨by decide, parse_toDataString_roundtrip _ (by decide)⟩
